import Mathlib

/-!
# Three-way merge iterator of `graveler/committed`

A shallow embedding of `graveler/committed/merge_iterator.go` and proofs about
the per-diff merge policy of `mergeIterator.Next`.

Go pointers that may be nil are `Option`s, a nil-pointer dereference is the
outcome `Exec.nilDeref`, and the two `for` loops of the source are structural
recursions over the entries the underlying cursor has not reached yet.
-/

namespace Graveler

/-! ## Data model (`graveler` package) -/

/-- One byte of a Go `[]byte`. -/
abbrev Byte := Fin 256

/-- The type `graveler.Key`: a byte sequence, ordered lexicographically (`bytes.Compare`). -/
abbrev Key := List Byte

/-- The type `graveler.Value`: the content digest and the payload reference. -/
structure Value where
  Identity : List Byte
  Data : List Byte
deriving DecidableEq, Repr

/-- The type `graveler.ValueRecord`: a key and a `*Value`; a nil value is a tombstone. -/
structure ValueRecord where
  Key : Key
  Value : Option Value
deriving DecidableEq, Repr

/-- Modelled from the spec: the enumeration `graveler.DiffType`, whose declaration is not
part of the sources; section 3 gives it the three members used by `mergeIterator.Next`. -/
inductive DiffType where
  | DiffTypeAdded
  | DiffTypeRemoved
  | DiffTypeChanged
deriving DecidableEq, Repr

/-- Modelled from the spec: the record `graveler.Diff` of section 3, with the fields read by
`mergeIterator.Next` (`Type` is spelled `Typ`). -/
structure Diff where
  Typ : DiffType
  Key : Key
  Value : Option Value
  OldIdentity : List Byte
deriving DecidableEq, Repr

/-- Errors an iterator can report through `Err()`; `fault` stands for any iteration fault of
an underlying source. -/
inductive GravelerError where
  | ErrConflictFound
  | ErrNotFound
  | fault (code : Nat)
deriving DecidableEq, Repr

/-- Outcome of running a piece of Go code: a result, a nil-pointer dereference, or (for the
fuelled driver loop only) running out of fuel. -/
inductive Exec (α : Type) where
  | ok (a : α)
  | nilDeref
  | outOfFuel
deriving DecidableEq, Repr

/-! ## The diff stream (`graveler.DiffIterator`) -/

/-- Modelled from the spec: the interface `graveler.DiffIterator`, which is not part of the
sources, as the sorted-record-iterator protocol of section 4.1 over a finite stream.
`Data` is the whole stream, `rest` the entries the cursor has not reached, `cur` the entry
under the cursor, `fault` the error the stream ends with once it is used up, `err` what
`Err()` reports; `seeks` and `closed` record the `SeekGE` and `Close` calls received. -/
structure DiffIterator where
  Data : List Diff
  rest : List Diff
  cur : Option Diff
  fault : Option GravelerError
  err : Option GravelerError
  seeks : List Key
  closed : Nat
deriving DecidableEq, Repr

/-- A diff stream positioned before its first entry. -/
def NewDiffStream (data : List Diff) : DiffIterator :=
  { Data := data, rest := data, cur := none, fault := none, err := none, seeks := [], closed := 0 }

/-- The cursor moved onto the entry `val`, with `rest` still to come. -/
def DiffIterator.advance (it : DiffIterator) (val : Diff) (rest : List Diff) : DiffIterator :=
  { it with cur := some val, rest := rest }

/-- The cursor moved past the last entry. -/
def DiffIterator.finish (it : DiffIterator) : DiffIterator :=
  { it with cur := none, rest := [], err := it.fault }

/-- The method `Next()`: advance to the next entry, reporting whether there is one. -/
def DiffIterator.Next (it : DiffIterator) : Bool × DiffIterator :=
  match it.rest with
  | [] => (false, it.finish)
  | val :: rest => (true, it.advance val rest)

/-- The method `Value()`: the entry under the cursor (nil without a valid position). -/
def DiffIterator.Value (it : DiffIterator) : Option Diff := it.cur

/-- The method `SeekGE(key)`: the next `Next()` lands on the first entry with key at least `key`. -/
def DiffIterator.SeekGE (it : DiffIterator) (id : Key) : DiffIterator :=
  { it with rest := it.Data.dropWhile (fun x => decide (x.Key < id)), cur := none, err := none,
            seeks := it.seeks ++ [id] }

/-- The method `Err()`. -/
def DiffIterator.Err (it : DiffIterator) : Option GravelerError := it.err

/-- The method `Close()`. -/
def DiffIterator.Close (it : DiffIterator) : DiffIterator :=
  { it with closed := it.closed + 1 }

/-! ## The base snapshot (`committed.Iterator`) -/

/-- Modelled from the spec: a position of the interface `committed.Iterator`, which is not
part of the sources. `Value()` returns a record and a range; at the header of a range the
record is nil. A header is placed at the smallest key of its range. -/
inductive BaseEntry where
  | header (minKey : Key)
  | record (r : ValueRecord)
deriving DecidableEq, Repr

/-- The key at which a position of the base iterator stands. -/
def BaseEntry.key : BaseEntry → Key
  | .header k => k
  | .record r => r.Key

/-- The record `Value()` returns at a position: nil at a range header. -/
def BaseEntry.valueRecord : BaseEntry → Option ValueRecord
  | .header _ => none
  | .record r => some r

/-- Modelled from the spec: the interface `committed.Iterator`, which is not part of the
sources, as the sorted-record-iterator protocol of section 4.1 over a finite list of
positions; the fields are those of `DiffIterator`. -/
structure Iterator where
  Data : List BaseEntry
  rest : List BaseEntry
  cur : Option BaseEntry
  fault : Option GravelerError
  err : Option GravelerError
  seeks : List Key
  closed : Nat
deriving DecidableEq, Repr

/-- A base iterator positioned before its first position. -/
def NewBase (data : List BaseEntry) : Iterator :=
  { Data := data, rest := data, cur := none, fault := none, err := none, seeks := [], closed := 0 }

/-- A base iterator over records only, given as key and identity pairs. -/
def NewBaseOfRecords (recs : List ValueRecord) : Iterator :=
  NewBase (recs.map BaseEntry.record)

/-- The cursor moved onto the position `e`, with `rest` still to come. -/
def Iterator.advance (it : Iterator) (e : BaseEntry) (rest : List BaseEntry) : Iterator :=
  { it with cur := some e, rest := rest }

/-- The cursor moved past the last position. -/
def Iterator.finish (it : Iterator) : Iterator :=
  { it with cur := none, rest := [], err := it.fault }

/-- The method `Next()`. -/
def Iterator.Next (it : Iterator) : Bool × Iterator :=
  match it.rest with
  | [] => (false, it.finish)
  | e :: rest => (true, it.advance e rest)

/-- The method `Value()`: the record under the cursor; nil at a range header. -/
def Iterator.Value (it : Iterator) : Option ValueRecord :=
  match it.cur with
  | some e => e.valueRecord
  | none => none

/-- The method `SeekGE(key)`: the next `Next()` lands on the first position at or after `key`. -/
def Iterator.SeekGE (it : Iterator) (id : Key) : Iterator :=
  { it with rest := it.Data.dropWhile (fun e => decide (e.key < id)), cur := none, err := none,
            seeks := it.seeks ++ [id] }

/-- The method `Err()`. -/
def Iterator.Err (it : Iterator) : Option GravelerError := it.err

/-- The method `Close()`. -/
def Iterator.Close (it : Iterator) : Iterator :=
  { it with closed := it.closed + 1 }

/-- The records of a base snapshot, in iteration order. -/
def Iterator.records (it : Iterator) : List ValueRecord :=
  it.Data.filterMap BaseEntry.valueRecord

/-- The base snapshot is sorted: positions never go back, and record keys strictly increase. -/
def Iterator.Sorted (it : Iterator) : Prop :=
  it.Data.Pairwise (fun a b => a.key ≤ b.key) ∧
    it.records.Pairwise (fun a b => a.Key < b.Key)

instance (it : Iterator) : Decidable it.Sorted :=
  inferInstanceAs (Decidable (_ ∧ _))

/-! ## `mergeIterator` (merge_iterator.go) -/

/-- The struct `mergeIterator`. The fields `ctx` and `ns` are never read or written by the
methods and are left out. -/
structure mergeIterator where
  diffIt : DiffIterator
  val : Option ValueRecord
  base : Iterator
  err : Option GravelerError
deriving DecidableEq, Repr

/-- The constructor `NewMergeIterator(diffTheirsToOurs, base)`; its error result is always nil. -/
def NewMergeIterator (diffTheirsToOurs : DiffIterator) (base : Iterator) : mergeIterator :=
  { diffIt := diffTheirsToOurs, val := none, base := base, err := none }

/-- The loop `for d.base.Next() && val == nil { val, _ = d.base.Value() }` of
`valueFromBase`, run on a base iterator `it` whose unreached positions are the list
argument. `Next()` is evaluated before `val == nil`, so the cursor moves one position past
the record found. -/
def baseLoop (it : Iterator) (val : Option ValueRecord) :
    List BaseEntry → Option ValueRecord × Iterator
  | [] => (val, it.finish)
  | e :: rest =>
    if val = none then baseLoop (it.advance e rest) (it.advance e rest).Value rest
    else (val, it.advance e rest)

/-- The method `mergeIterator.valueFromBase(key)`: the base record at exactly `key`, or nil. -/
def mergeIterator.valueFromBase (d : mergeIterator) (key : Key) :
    Option ValueRecord × mergeIterator :=
  let b := d.base.SeekGE key
  let r := baseLoop b none b.rest
  match r.1 with
  | none => (none, { d with base := r.2 })
  | some val => if val.Key = key then (some val, { d with base := r.2 })
                else (none, { d with base := r.2 })

/-- The method `mergeIterator.setValue()`: buffer the record for the diff under the cursor. -/
def mergeIterator.setValue (d : mergeIterator) : Exec mergeIterator :=
  match d.diffIt.Value with
  | none => .nilDeref
  | some diff =>
    if diff.Typ = .DiffTypeRemoved then
      .ok { d with val := some { Key := diff.Key, Value := none } }
    else
      .ok { d with val := some { Key := diff.Key, Value := diff.Value } }

/-- The statements `d.setValue(); return true`. -/
def mergeIterator.emit (d : mergeIterator) : Exec (Bool × mergeIterator) :=
  match d.setValue with
  | .ok d1 => .ok (true, d1)
  | .nilDeref => .nilDeref
  | .outOfFuel => .outOfFuel

/-- The statements `d.err = graveler.ErrConflictFound; return false`. -/
def mergeIterator.conflict (d : mergeIterator) : Exec (Bool × mergeIterator) :=
  .ok (false, { d with err := some .ErrConflictFound })

/-- The merge iterator after `d.diffIt.Next()` returned true and landed on `val`. -/
def mergeIterator.onDiff (d : mergeIterator) (val : Diff) (rest : List Diff) : mergeIterator :=
  { d with diffIt := d.diffIt.advance val rest }

/-- The loop `for d.diffIt.Next() { ... }; return false` of `mergeIterator.Next`, run on a
merge iterator whose diff stream has the list argument as its unreached entries. -/
def mergeIterator.nextLoop (d : mergeIterator) : List Diff → Exec (Bool × mergeIterator)
  | [] => .ok (false, { d with diffIt := d.diffIt.finish })
  | val :: rest =>
    let r := (d.onDiff val rest).valueFromBase val.Key
    let baseVal := r.1
    let d1 := r.2
    match val.Typ with
    | .DiffTypeAdded =>
      match baseVal with
      | none => d1.emit
      | some bv =>
        match bv.Value, val.Value with
        | some b, some v =>
          if b.Identity ≠ v.Identity then d1.conflict
          else nextLoop d1 rest
        | _, _ => .nilDeref
    | .DiffTypeChanged =>
      match baseVal with
      | none => d1.conflict
      | some bv =>
        match bv.Value, val.Value with
        | some b, some v =>
          if b.Identity = v.Identity then nextLoop d1 rest
          else if b.Identity ≠ val.OldIdentity then d1.conflict
          else d1.emit
        | _, _ => .nilDeref
    | .DiffTypeRemoved =>
      match baseVal with
      | some bv =>
        match bv.Value with
        | some b =>
          if b.Identity = val.OldIdentity then d1.emit
          else nextLoop { d1 with err := some .ErrConflictFound } rest
        | none => .nilDeref
      | none => nextLoop d1 rest

/-- The method `mergeIterator.Next()`. -/
def mergeIterator.Next (d : mergeIterator) : Exec (Bool × mergeIterator) :=
  d.nextLoop d.diffIt.rest

/-- The method `mergeIterator.SeekGE(id)`. -/
def mergeIterator.SeekGE (d : mergeIterator) (id : Key) : mergeIterator :=
  { d with val := none, err := none, diffIt := d.diffIt.SeekGE id }

/-- The method `mergeIterator.Value()`. -/
def mergeIterator.Value (d : mergeIterator) : Option ValueRecord := d.val

/-- The method `mergeIterator.Err()`. -/
def mergeIterator.Err (d : mergeIterator) : Option GravelerError := d.err

/-- The method `mergeIterator.Close()`. -/
def mergeIterator.Close (d : mergeIterator) : mergeIterator :=
  { d with diffIt := d.diffIt.Close }

/-- The caller's loop `for it.Next() { values = append(values, it.Value()) }` of
`TestMergeIterator`, with fuel. -/
def mergeIterator.drainLoop :
    Nat → mergeIterator → List (Option ValueRecord) →
      Exec (List (Option ValueRecord) × mergeIterator)
  | 0, _, _ => .outOfFuel
  | n + 1, it, values =>
    match it.Next with
    | .ok (true, it1) => drainLoop n it1 (values ++ [it1.Value])
    | .ok (false, it1) => .ok (values, it1)
    | .nilDeref => .nilDeref
    | .outOfFuel => .outOfFuel

/-- Draining a merge iterator: each `Next()` that returns true consumes an entry of the diff
stream, so one round more than the entries left is enough fuel. -/
def mergeIterator.drain (it : mergeIterator) : Exec (List (Option ValueRecord) × mergeIterator) :=
  mergeIterator.drainLoop (it.diffIt.rest.length + 1) it []

/-- The record `setValue` buffers for a diff: a tombstone for a removal. -/
def Diff.record (x : Diff) : ValueRecord :=
  if x.Typ = .DiffTypeRemoved then { Key := x.Key, Value := none }
  else { Key := x.Key, Value := x.Value }

/-- An added or changed diff carries a value. -/
def Diff.HasValue (x : Diff) : Prop :=
  x.Typ = .DiffTypeRemoved ∨ x.Value ≠ none

/-- Every record of the base snapshot carries a value. -/
def Iterator.HasValues (it : Iterator) : Prop :=
  ∀ r ∈ it.records, r.Value ≠ none

instance (x : Diff) : Decidable x.HasValue :=
  inferInstanceAs (Decidable (_ ∨ _))

instance (it : Iterator) : Decidable it.HasValues :=
  inferInstanceAs (Decidable (∀ r ∈ it.records, r.Value ≠ none))

/-! ## Auxiliary definitions -/

/-- The record the base lookup lands on: the first record at or after `key`. -/
def lookupGE (data : List BaseEntry) (key : Key) : Option ValueRecord :=
  (data.dropWhile (fun e => decide (e.key < key))).findSome? BaseEntry.valueRecord

/-- The state in which `Next` examines the diff `val`: the diff stream stands on `val` and
the base has been looked up at its key. -/
def mergeIterator.lookedUp (d : mergeIterator) (val : Diff) (rest : List Diff) : mergeIterator :=
  ((d.onDiff val rest).valueFromBase val.Key).2

/-! ## Scenarios of `TestMergeIterator` -/

/-- The key `"k0"`. -/
def k0 : Key := [107, 48]

/-- The key `"k1"`. -/
def k1 : Key := [107, 49]

/-- The key `"k2"`. -/
def k2 : Key := [107, 50]

/-- The identity `"i0"`. -/
def i0 : List Byte := [105, 48]

/-- The identity `"i1"`. -/
def i1 : List Byte := [105, 49]

/-- The identity `"i1a"`. -/
def i1a : List Byte := [105, 49, 97]

/-- The identity `"i1b"`. -/
def i1b : List Byte := [105, 49, 98]

/-- The identity `"i2"`. -/
def i2 : List Byte := [105, 50]

/-- The identity `"i2a"`. -/
def i2a : List Byte := [105, 50, 97]

/-- The value `&graveler.Value{Identity: id}` of the tests. -/
def valueOf (id : List Byte) : Value := { Identity := id, Data := [] }

/-- The base record with key `k` and identity `id`. -/
def recordOf (k : Key) (id : List Byte) : ValueRecord := { Key := k, Value := some (valueOf id) }

/-- An added diff: the key is new on the right. -/
def added (k : Key) (id : List Byte) : Diff :=
  { Typ := .DiffTypeAdded, Key := k, Value := some (valueOf id), OldIdentity := [] }

/-- A changed diff, from identity `old` on the left to `new` on the right. -/
def changed (k : Key) (new old : List Byte) : Diff :=
  { Typ := .DiffTypeChanged, Key := k, Value := some (valueOf new), OldIdentity := old }

/-- A removed diff: the key, with identity `old` on the left, is gone on the right. -/
def removed (k : Key) (old : List Byte) : Diff :=
  { Typ := .DiffTypeRemoved, Key := k, Value := none, OldIdentity := old }

/-- A fresh merge iterator over a diff stream and the base records given. -/
def mergeOf (diffs : List Diff) (base : List ValueRecord) : mergeIterator :=
  NewMergeIterator (NewDiffStream diffs) (NewBaseOfRecords base)

/-! ## The decisions of `Next`, diff by diff -/

/-- What the loop of `Next` does with one diff: buffer its record and return true, go on to
the next diff, set the conflict and return false, set the conflict and go on (the removal
branch, which has no `return`), or dereference a nil value. -/
inductive Verdict where
  | emit
  | skip
  | stop
  | mark
  | crash
deriving DecidableEq, Repr

/-- The result of `valueFromBase(key)` over the positions `data` of the base. -/
def baseAt (data : List BaseEntry) (key : Key) : Option ValueRecord :=
  match lookupGE data key with
  | none => none
  | some val => if val.Key = key then some val else none

/-- The branch the `switch` of `Next` takes on the diff `val`, given the base record found. -/
def verdict (baseVal : Option ValueRecord) (val : Diff) : Verdict :=
  match val.Typ with
  | .DiffTypeAdded =>
    match baseVal with
    | none => .emit
    | some bv =>
      match bv.Value, val.Value with
      | some b, some v => if b.Identity ≠ v.Identity then .stop else .skip
      | _, _ => .crash
  | .DiffTypeChanged =>
    match baseVal with
    | none => .stop
    | some bv =>
      match bv.Value, val.Value with
      | some b, some v =>
        if b.Identity = v.Identity then .skip
        else if b.Identity ≠ val.OldIdentity then .stop
        else .emit
      | _, _ => .crash
  | .DiffTypeRemoved =>
    match baseVal with
    | some bv =>
      match bv.Value with
      | some b => if b.Identity = val.OldIdentity then .emit else .mark
      | none => .crash
    | none => .skip

/-- Mapping the result of a run. -/
def Exec.map {α β : Type} (f : α → β) : Exec α → Exec β
  | .ok a => .ok (f a)
  | .nilDeref => .nilDeref
  | .outOfFuel => .outOfFuel

/-- What a caller draining the merge iterator gets, computed diff by diff from the verdicts:
the records collected, the final error, and the diff the stream is left on. -/
def plan (data : List BaseEntry) :
    List Diff → Option GravelerError →
      Exec (List (Option ValueRecord) × Option GravelerError × Option Diff)
  | [], e => .ok ([], e, none)
  | x :: t, e =>
    match verdict (baseAt data x.Key) x with
    | .emit => (plan data t e).map (fun q => (some x.record :: q.1, q.2))
    | .skip => plan data t e
    | .stop => .ok ([], some .ErrConflictFound, some x)
    | .mark => plan data t (some .ErrConflictFound)
    | .crash => .nilDeref

/-- What is observed of a drained merge iterator: the records collected, `Err()`, and the
diff under the cursor of the diff stream. -/
def observe (r : Exec (List (Option ValueRecord) × mergeIterator)) :
    Exec (List (Option ValueRecord) × Option GravelerError × Option Diff) :=
  r.map (fun p => (p.1, p.2.Err, p.2.diffIt.Value))

/-! ## Snapshots and the two-way diff (section 4.2 of the spec) -/

/-- A snapshot: the key and value pairs of a sorted mapping, in iteration order. -/
abbrev Snapshot := List (Key × Value)

/-- The keys of a snapshot strictly increase. -/
def SortedSnapshot (s : Snapshot) : Prop :=
  s.Pairwise (fun a b => a.1 < b.1)

instance (s : Snapshot) : Decidable (SortedSnapshot s) :=
  inferInstanceAs (Decidable (List.Pairwise _ _))

/-- The value a snapshot has at a key, if any. -/
def valueAt : Snapshot → Key → Option Value
  | [], _ => none
  | p :: t, k => if p.1 = k then some p.2 else valueAt t k

/-- The identity a snapshot has at a key; absence is a value of its own. -/
def identityAt (s : Snapshot) (k : Key) : Option (List Byte) :=
  (valueAt s k).map Value.Identity

/-- The base iterator over a snapshot. -/
def baseOf (s : Snapshot) : Iterator :=
  NewBaseOfRecords (s.map (fun p => { Key := p.1, Value := some p.2 }))

/-- The diff `Added{Key, Value=right.Value}` of section 4.2. -/
def addedOf (r : Key × Value) : Diff :=
  { Typ := .DiffTypeAdded, Key := r.1, Value := some r.2, OldIdentity := [] }

/-- The diff `Removed{Key, OldIdentity=left.Identity}` of section 4.2. -/
def removedOf (l : Key × Value) : Diff :=
  { Typ := .DiffTypeRemoved, Key := l.1, Value := none, OldIdentity := l.2.Identity }

/-- The diff `Changed{Key, Value=right.Value, OldIdentity=left.Identity}` of section 4.2. -/
def changedOf (l r : Key × Value) : Diff :=
  { Typ := .DiffTypeChanged, Key := r.1, Value := some r.2, OldIdentity := l.2.Identity }

/-- Modelled from the spec: the merge-join of section 4.2 (the diff engine is not part of
the sources) with the head `l` of the left side fixed, running down the right side;
`goLeft` is the join of the rest of the left side. -/
def diffAux (l : Key × Value) (goLeft : Snapshot → List Diff) : Snapshot → List Diff
  | [] => removedOf l :: goLeft []
  | r :: rs =>
    if l.1 < r.1 then removedOf l :: goLeft (r :: rs)
    else if r.1 < l.1 then addedOf r :: diffAux l goLeft rs
    else if l.2.Identity = r.2.Identity then goLeft rs
    else changedOf l r :: goLeft rs

/-- Modelled from the spec: the two-way diff engine of section 4.2 (`committed.NewDiffIterator`,
which is not part of the sources), as the list of diffs its stream yields: a merge-join over
the two sorted sides that advances the side with the smaller key, emits Added for a key
only on the right, Removed for a key only on the left, nothing for a shared key with equal
Identities and Changed for a shared key with different Identities. -/
def diffList : Snapshot → Snapshot → List Diff
  | [], right => right.map addedOf
  | l :: ls, right => diffAux l (diffList ls) right

/-- Modelled from the spec: the diff iterator of section 4.2 over two snapshots. -/
def NewDiffIterator (left right : Snapshot) : DiffIterator :=
  NewDiffStream (diffList left right)

/-- The merge iterator for merging `ours` into `theirs` relative to `base`: it runs on the
diff from theirs to ours and on the base snapshot. -/
def mergeOfSnapshots (base theirs ours : Snapshot) : mergeIterator :=
  NewMergeIterator (NewDiffIterator theirs ours) (baseOf base)

/-- The diff the engine of section 4.2 has at a key, from the values of the two sides. -/
def diffAt (k : Key) : Option Value → Option Value → Option Diff
  | none, none => none
  | none, some r => some (addedOf (k, r))
  | some l, none => some (removedOf (k, l))
  | some l, some r =>
    if l.Identity = r.Identity then none else some (changedOf (k, l) (k, r))

/-- The diff `x` is the one the engine has at its key. -/
def IsDiffAt (left right : Snapshot) (x : Diff) : Prop :=
  diffAt x.Key (valueAt left x.Key) (valueAt right x.Key) = some x

/-- The two sides of a three-way merge both changed key `k` away from base, differently. -/
def ConflictAt (base theirs ours : Snapshot) (k : Key) : Prop :=
  identityAt ours k ≠ identityAt base k ∧ identityAt theirs k ≠ identityAt base k ∧
    identityAt ours k ≠ identityAt theirs k

instance (base theirs ours : Snapshot) (k : Key) : Decidable (ConflictAt base theirs ours k) :=
  inferInstanceAs (Decidable (_ ∧ _ ∧ _))

/-- Applying one emitted record to a mapping: set the key to the value, delete the key on a
nil value; a nil record changes nothing. -/
def applyRecord (m : Key → Option Value) (r : Option ValueRecord) : Key → Option Value :=
  match r with
  | none => m
  | some rec => fun k => if k = rec.Key then rec.Value else m k

/-- Applying the emitted records, in order. -/
def applyRecords (m : Key → Option Value) (rs : List (Option ValueRecord)) :
    Key → Option Value :=
  rs.foldl applyRecord m

/-- A diff stream that yields `data` and then stops with the error `e`. -/
def NewFaultyDiffStream (data : List Diff) (e : GravelerError) : DiffIterator :=
  { NewDiffStream data with fault := some e }

/-- A caller making `n` successive calls of `Next()`, collecting `Value()` after each call
that returned true and going on after a call that returned false. -/
def mergeIterator.nextCalls :
    Nat → mergeIterator → List (Option ValueRecord) →
      Exec (List (Option ValueRecord) × mergeIterator)
  | 0, it, values => .ok (values, it)
  | n + 1, it, values =>
    match it.Next with
    | .ok (true, it1) => nextCalls n it1 (values ++ [it1.Value])
    | .ok (false, it1) => nextCalls n it1 values
    | .nilDeref => .nilDeref
    | .outOfFuel => .outOfFuel

/-! ## The base lookup -/

theorem baseLoop_fst_some (it : Iterator) (v : ValueRecord) (l : List BaseEntry) :
    (baseLoop it (some v) l).1 = some v := by
  cases l <;> simp [baseLoop]

theorem baseLoop_fst_none (it : Iterator) (l : List BaseEntry) :
    (baseLoop it none l).1 = l.findSome? BaseEntry.valueRecord := by
  induction l generalizing it with
  | nil => simp [baseLoop]
  | cons e rest ih =>
    cases e with
    | header k =>
      simp [baseLoop, Iterator.Value, Iterator.advance, BaseEntry.valueRecord, ih]
    | record r =>
      simp [baseLoop, Iterator.Value, Iterator.advance, BaseEntry.valueRecord,
        baseLoop_fst_some]

theorem baseLoop_snd_Data (it : Iterator) (val : Option ValueRecord) (l : List BaseEntry) :
    (baseLoop it val l).2.Data = it.Data := by
  induction l generalizing it val with
  | nil => simp [baseLoop, Iterator.finish]
  | cons e rest ih =>
    by_cases h : val = none
    · simp [baseLoop, h, ih, Iterator.advance]
    · simp [baseLoop, h, Iterator.advance]

/-- The loop of `valueFromBase` is the source's loop over `Next()` and `Value()`. -/
theorem baseLoop_unfold (it : Iterator) (val : Option ValueRecord) :
    baseLoop it val it.rest =
      if it.Next.1 = true then
        (if val = none then baseLoop it.Next.2 it.Next.2.Value it.Next.2.rest
         else (val, it.Next.2))
      else (val, it.Next.2) := by
  cases h : it.rest with
  | nil => simp [baseLoop, Iterator.Next, h]
  | cons e rest => simp [baseLoop, Iterator.Next, h, Iterator.advance]

theorem valueFromBase_fst (d : mergeIterator) (key : Key) :
    (d.valueFromBase key).1 =
      match lookupGE d.base.Data key with
      | none => none
      | some val => if val.Key = key then some val else none := by
  unfold mergeIterator.valueFromBase lookupGE
  simp only [baseLoop_fst_none, Iterator.SeekGE]
  cases h : List.findSome? BaseEntry.valueRecord
      (List.dropWhile (fun e => decide (e.key < key)) d.base.Data) with
  | none => rfl
  | some val => by_cases hk : val.Key = key <;> simp [hk]

theorem valueFromBase_snd (d : mergeIterator) (key : Key) :
    (d.valueFromBase key).2 =
      { d with base := (baseLoop (d.base.SeekGE key) none (d.base.SeekGE key).rest).2 } := by
  unfold mergeIterator.valueFromBase
  cases h : (baseLoop (d.base.SeekGE key) none (d.base.SeekGE key).rest).1 with
  | none => simp [h]
  | some val => by_cases hk : val.Key = key <;> simp [h, hk]

theorem valueFromBase_diffIt (d : mergeIterator) (key : Key) :
    (d.valueFromBase key).2.diffIt = d.diffIt := by
  rw [valueFromBase_snd]

theorem valueFromBase_val (d : mergeIterator) (key : Key) :
    (d.valueFromBase key).2.val = d.val := by
  rw [valueFromBase_snd]

theorem valueFromBase_err (d : mergeIterator) (key : Key) :
    (d.valueFromBase key).2.err = d.err := by
  rw [valueFromBase_snd]

theorem valueFromBase_base_Data (d : mergeIterator) (key : Key) :
    (d.valueFromBase key).2.base.Data = d.base.Data := by
  rw [valueFromBase_snd]
  simp [baseLoop_snd_Data, Iterator.SeekGE]

/-- Among positions at or after `key`, the first record is the record at `key`. -/
theorem findSome_of_ge (key : Key) (r : ValueRecord) (hr : r.Key = key) :
    ∀ l : List BaseEntry, (∀ e ∈ l, key ≤ e.key) →
      (l.filterMap BaseEntry.valueRecord).Pairwise (fun a b => a.Key < b.Key) →
      r ∈ l.filterMap BaseEntry.valueRecord →
      l.findSome? BaseEntry.valueRecord = some r := by
  intro l
  induction l with
  | nil => intro _ _ hmem; simp at hmem
  | cons e t ih =>
    intro hge hpw hmem
    cases e with
    | header k =>
      simp only [List.filterMap_cons, BaseEntry.valueRecord] at hpw hmem
      simp only [List.findSome?_cons, BaseEntry.valueRecord]
      exact ih (fun x hx => hge x (List.mem_cons_of_mem _ hx)) hpw hmem
    | record q =>
      simp only [List.filterMap_cons, BaseEntry.valueRecord, List.pairwise_cons,
        List.mem_cons] at hpw hmem
      simp only [List.findSome?_cons, BaseEntry.valueRecord]
      rcases hmem with h | h
      · rw [h]
      · exfalso
        have h1 : q.Key < r.Key := hpw.1 r h
        have h2 : key ≤ q.Key := hge (BaseEntry.record q) (List.mem_cons_self _ _)
        rw [hr] at h1
        exact absurd (lt_of_le_of_lt h2 h1) (lt_irrefl _)

/-- On a sorted base, the lookup finds the record whose key is `key`. -/
theorem lookupGE_found (key : Key) (r : ValueRecord) (hr : r.Key = key) :
    ∀ l : List BaseEntry, l.Pairwise (fun a b => a.key ≤ b.key) →
      (l.filterMap BaseEntry.valueRecord).Pairwise (fun a b => a.Key < b.Key) →
      r ∈ l.filterMap BaseEntry.valueRecord →
      lookupGE l key = some r := by
  intro l
  induction l with
  | nil => intro _ _ hmem; simp at hmem
  | cons e t ih =>
    intro hsorted hpw hmem
    rw [List.pairwise_cons] at hsorted
    by_cases hlt : e.key < key
    · have hdrop : lookupGE (e :: t) key = lookupGE t key := by
        simp [lookupGE, List.dropWhile_cons, hlt]
      rw [hdrop]
      cases e with
      | header k =>
        simp only [List.filterMap_cons, BaseEntry.valueRecord] at hpw hmem
        exact ih hsorted.2 hpw hmem
      | record q =>
        simp only [List.filterMap_cons, BaseEntry.valueRecord, List.pairwise_cons,
          List.mem_cons] at hpw hmem
        rcases hmem with h | h
        · exfalso
          rw [h] at hr
          simp only [BaseEntry.key] at hlt
          rw [hr] at hlt
          exact lt_irrefl _ hlt
        · exact ih hsorted.2 hpw.2 h
    · have hkeep : lookupGE (e :: t) key = (e :: t).findSome? BaseEntry.valueRecord := by
        simp [lookupGE, List.dropWhile_cons, hlt]
      rw [hkeep]
      have hle : key ≤ e.key := le_of_not_lt hlt
      apply findSome_of_ge key r hr (e :: t) _ hpw hmem
      intro x hx
      rcases List.mem_cons.mp hx with h | h
      · rw [h]; exact hle
      · exact le_trans hle (hsorted.1 x h)

/-- Whatever the lookup lands on is a record of the base. -/
theorem lookupGE_mem (key : Key) (r : ValueRecord) (l : List BaseEntry)
    (h : lookupGE l key = some r) : r ∈ l.filterMap BaseEntry.valueRecord := by
  unfold lookupGE at h
  obtain ⟨a, ha, hfa⟩ := List.exists_of_findSome?_eq_some h
  exact List.mem_filterMap.mpr ⟨a, (List.dropWhile_suffix _).subset ha, hfa⟩

/-- On a sorted base that has the record `r`, `valueFromBase(r.Key)` returns `r`. -/
theorem valueFromBase_found (d : mergeIterator) (key : Key) (r : ValueRecord)
    (hsorted : d.base.Sorted) (hmem : r ∈ d.base.records) (hr : r.Key = key) :
    (d.valueFromBase key).1 = some r := by
  rw [valueFromBase_fst, lookupGE_found key r hr d.base.Data hsorted.1 hsorted.2 hmem]
  simp [hr]

/-- When the base has no record at exactly `key`, `valueFromBase(key)` returns nil. -/
theorem valueFromBase_absent (d : mergeIterator) (key : Key)
    (habs : ∀ r ∈ d.base.records, r.Key ≠ key) :
    (d.valueFromBase key).1 = none := by
  rw [valueFromBase_fst]
  cases h : lookupGE d.base.Data key with
  | none => rfl
  | some val =>
    have hne : val.Key ≠ key := habs val (lookupGE_mem key val d.base.Data h)
    simp [hne]

/-- A record returned by `valueFromBase(key)` is a record of the base at `key`. -/
theorem valueFromBase_sound (d : mergeIterator) (key : Key) (r : ValueRecord)
    (h : (d.valueFromBase key).1 = some r) : r ∈ d.base.records ∧ r.Key = key := by
  rw [valueFromBase_fst] at h
  cases hl : lookupGE d.base.Data key with
  | none => rw [hl] at h; simp at h
  | some val =>
    rw [hl] at h
    by_cases hk : val.Key = key
    · simp only [hk, if_true, Option.some.injEq] at h
      subst h
      exact ⟨lookupGE_mem key val d.base.Data hl, hk⟩
    · simp [hk] at h

/-! ## One round of `Next` -/

theorem lookedUp_val (d : mergeIterator) (val : Diff) (rest : List Diff) :
    (d.lookedUp val rest).val = d.val := by
  simp [mergeIterator.lookedUp, valueFromBase_val, mergeIterator.onDiff]

theorem lookedUp_err (d : mergeIterator) (val : Diff) (rest : List Diff) :
    (d.lookedUp val rest).err = d.err := by
  simp [mergeIterator.lookedUp, valueFromBase_err, mergeIterator.onDiff]

theorem lookedUp_diffIt (d : mergeIterator) (val : Diff) (rest : List Diff) :
    (d.lookedUp val rest).diffIt = d.diffIt.advance val rest := by
  simp [mergeIterator.lookedUp, valueFromBase_diffIt, mergeIterator.onDiff]

theorem lookedUp_base_Data (d : mergeIterator) (val : Diff) (rest : List Diff) :
    (d.lookedUp val rest).base.Data = d.base.Data := by
  simp [mergeIterator.lookedUp, valueFromBase_base_Data, mergeIterator.onDiff]

/-- With the diff stream standing on `val`, `setValue(); return true` buffers the record of
`val`. -/
theorem emit_of_cur (d : mergeIterator) (val : Diff) (h : d.diffIt.cur = some val) :
    d.emit = .ok (true, { d with val := some val.record }) := by
  unfold mergeIterator.emit mergeIterator.setValue DiffIterator.Value Diff.record
  rw [h]
  by_cases ht : val.Typ = DiffType.DiffTypeRemoved <;> simp [ht]

theorem lookedUp_emit (d : mergeIterator) (val : Diff) (rest : List Diff) :
    (d.lookedUp val rest).emit =
      .ok (true, { d.lookedUp val rest with val := some val.record }) :=
  emit_of_cur _ val (by rw [lookedUp_diffIt]; rfl)

/-- The method `Next` is the loop run on the unreached entries of the diff stream. -/
theorem Next_of_rest (d : mergeIterator) (l : List Diff) (h : d.diffIt.rest = l) :
    d.Next = d.nextLoop l := by
  unfold mergeIterator.Next
  rw [h]

/-- After a diff that emits nothing, the loop goes on as a call of `Next` would. -/
theorem lookedUp_Next (d : mergeIterator) (val : Diff) (rest : List Diff) :
    (d.lookedUp val rest).nextLoop rest = (d.lookedUp val rest).Next :=
  (Next_of_rest _ rest (by rw [lookedUp_diffIt]; rfl)).symm

/-- What one call of the loop can do to the buffered record, the error and the base. -/
theorem nextLoop_outcome : ∀ (l : List Diff) (d : mergeIterator) (b : Bool) (d1 : mergeIterator),
    d.nextLoop l = .ok (b, d1) →
      (d1.err = d.err ∨ d1.err = some .ErrConflictFound) ∧
      ((b = false ∧ d1.val = d.val) ∨ (b = true ∧ ∃ x ∈ l, d1.val = some x.record)) ∧
      d1.base.Data = d.base.Data := by
  intro l
  induction l with
  | nil =>
    intro d b d1 h
    simp only [mergeIterator.nextLoop, Exec.ok.injEq, Prod.mk.injEq] at h
    obtain ⟨hb, hd⟩ := h
    subst hd
    exact ⟨Or.inl rfl, Or.inl ⟨hb.symm, rfl⟩, rfl⟩
  | cons val rest ih =>
    intro d b d1 h
    have hemit : (d.lookedUp val rest).emit = .ok (b, d1) →
        (d1.err = d.err ∨ d1.err = some .ErrConflictFound) ∧
        ((b = false ∧ d1.val = d.val) ∨
          (b = true ∧ ∃ x ∈ val :: rest, d1.val = some x.record)) ∧
        d1.base.Data = d.base.Data := by
      intro he
      rw [lookedUp_emit] at he
      simp only [Exec.ok.injEq, Prod.mk.injEq] at he
      obtain ⟨hb, hd⟩ := he
      subst hd
      exact ⟨Or.inl (lookedUp_err d val rest),
        Or.inr ⟨hb.symm, val, List.mem_cons_self _ _, rfl⟩, lookedUp_base_Data d val rest⟩
    have hconf : (d.lookedUp val rest).conflict = .ok (b, d1) →
        (d1.err = d.err ∨ d1.err = some .ErrConflictFound) ∧
        ((b = false ∧ d1.val = d.val) ∨
          (b = true ∧ ∃ x ∈ val :: rest, d1.val = some x.record)) ∧
        d1.base.Data = d.base.Data := by
      intro he
      simp only [mergeIterator.conflict, Exec.ok.injEq, Prod.mk.injEq] at he
      obtain ⟨hb, hd⟩ := he
      subst hd
      exact ⟨Or.inr rfl, Or.inl ⟨hb.symm, lookedUp_val d val rest⟩,
        lookedUp_base_Data d val rest⟩
    have hrec : ∀ d2 : mergeIterator, d2.nextLoop rest = .ok (b, d1) →
        (d2.err = d.err ∨ d2.err = some .ErrConflictFound) → d2.val = d.val →
        d2.base.Data = d.base.Data →
        (d1.err = d.err ∨ d1.err = some .ErrConflictFound) ∧
        ((b = false ∧ d1.val = d.val) ∨
          (b = true ∧ ∃ x ∈ val :: rest, d1.val = some x.record)) ∧
        d1.base.Data = d.base.Data := by
      intro d2 he herr hval hdata
      obtain ⟨h1, h2, h3⟩ := ih d2 b d1 he
      refine ⟨?_, ?_, h3.trans hdata⟩
      · rcases h1 with h1 | h1
        · rw [h1]; exact herr
        · exact Or.inr h1
      · rcases h2 with ⟨hb, hv⟩ | ⟨hb, x, hx, hv⟩
        · exact Or.inl ⟨hb, hv.trans hval⟩
        · exact Or.inr ⟨hb, x, List.mem_cons_of_mem _ hx, hv⟩
    have hrec1 := fun he => hrec (d.lookedUp val rest) he (Or.inl (lookedUp_err d val rest))
      (lookedUp_val d val rest) (lookedUp_base_Data d val rest)
    have hrec2 := fun he => hrec { d.lookedUp val rest with err := some .ErrConflictFound } he
      (Or.inr rfl) (lookedUp_val d val rest) (lookedUp_base_Data d val rest)
    simp only [mergeIterator.nextLoop] at h
    change (match val.Typ with
      | .DiffTypeAdded => _ | .DiffTypeChanged => _ | .DiffTypeRemoved => _) = _ at h
    split at h
    · split at h
      · exact hemit h
      · split at h
        · split at h
          · exact hconf h
          · exact hrec1 h
        · exact absurd h (by simp)
    · split at h
      · exact hconf h
      · split at h
        · split at h
          · exact hrec1 h
          · split at h
            · exact hconf h
            · exact hemit h
        · exact absurd h (by simp)
    · split at h
      · split at h
        · split at h
          · exact hemit h
          · exact hrec2 h
        · exact absurd h (by simp)
      · exact hrec1 h

theorem HasValues_of_Data (a b : Iterator) (h : a.Data = b.Data) (hb : b.HasValues) :
    a.HasValues := by
  unfold Iterator.HasValues Iterator.records at *
  rw [h]; exact hb

/-- On a diff stream whose added and changed diffs carry a value, over a base whose records
carry a value, a call of the loop returns. -/
theorem nextLoop_total : ∀ (l : List Diff) (d : mergeIterator),
    (∀ x ∈ l, x.HasValue) → d.base.HasValues →
      ∃ b d1, d.nextLoop l = .ok (b, d1) := by
  intro l
  induction l with
  | nil => intro d _ _; exact ⟨false, _, rfl⟩
  | cons val rest ih =>
    intro d hl hbase
    have hrest : ∀ x ∈ rest, x.HasValue := fun x hx => hl x (List.mem_cons_of_mem _ hx)
    have hval : val.HasValue := hl val (List.mem_cons_self _ _)
    have hrec1 := ih (d.lookedUp val rest) hrest
      (HasValues_of_Data _ _ (lookedUp_base_Data d val rest) hbase)
    have hrec2 := ih { d.lookedUp val rest with err := some .ErrConflictFound } hrest
      (HasValues_of_Data _ _ (lookedUp_base_Data d val rest) hbase)
    have hemit : ∃ b d1, (d.lookedUp val rest).emit = .ok (b, d1) :=
      ⟨true, _, lookedUp_emit d val rest⟩
    have hconf : ∃ b d1, (d.lookedUp val rest).conflict = .ok (b, d1) := ⟨false, _, rfl⟩
    simp only [mergeIterator.nextLoop]
    cases hb : ((d.onDiff val rest).valueFromBase val.Key).1 with
    | none =>
      cases ht : val.Typ with
      | DiffTypeAdded => exact hemit
      | DiffTypeChanged => exact hconf
      | DiffTypeRemoved => exact hrec1
    | some bv =>
      have hbv : bv.Value ≠ none := hbase bv (valueFromBase_sound _ _ _ hb).1
      obtain ⟨b, hbe⟩ : ∃ b, bv.Value = some b := by
        cases hq : bv.Value with
        | none => exact absurd hq hbv
        | some b => exact ⟨b, rfl⟩
      cases ht : val.Typ with
      | DiffTypeAdded =>
        have hv : val.Value ≠ none := by
          rcases hval with h | h
          · rw [ht] at h; cases h
          · exact h
        obtain ⟨v, hve⟩ : ∃ v, val.Value = some v := by
          cases hq : val.Value with
          | none => exact absurd hq hv
          | some v => exact ⟨v, rfl⟩
        simp only [hbe, hve]
        by_cases hi : b.Identity = v.Identity
        · rw [if_neg (not_not.mpr hi)]; exact hrec1
        · rw [if_pos hi]; exact hconf
      | DiffTypeChanged =>
        have hv : val.Value ≠ none := by
          rcases hval with h | h
          · rw [ht] at h; cases h
          · exact h
        obtain ⟨v, hve⟩ : ∃ v, val.Value = some v := by
          cases hq : val.Value with
          | none => exact absurd hq hv
          | some v => exact ⟨v, rfl⟩
        simp only [hbe, hve]
        by_cases hi : b.Identity = v.Identity
        · rw [if_pos hi]; exact hrec1
        · by_cases ho : b.Identity = val.OldIdentity
          · rw [if_neg hi, if_neg (not_not.mpr ho)]; exact hemit
          · rw [if_neg hi, if_pos ho]; exact hconf
      | DiffTypeRemoved =>
        simp only [hbe]
        by_cases ho : b.Identity = val.OldIdentity
        · rw [if_pos ho]; exact hemit
        · rw [if_neg ho]; exact hrec2

/-- On an exhausted diff stream `Next` is one failed `d.diffIt.Next()`. -/
theorem Next_exhausted (d : mergeIterator) (h : d.diffIt.rest = []) :
    d.diffIt.Next.1 = false ∧
      d.Next = .ok (false, { d with diffIt := d.diffIt.Next.2 }) := by
  simp [mergeIterator.Next, mergeIterator.nextLoop, DiffIterator.Next, h]

/-- The state `onDiff` is the one a successful `d.diffIt.Next()` leaves. -/
theorem onDiff_eq (d : mergeIterator) (val : Diff) (rest : List Diff)
    (h : d.diffIt.rest = val :: rest) :
    d.diffIt.Next.1 = true ∧ d.onDiff val rest = { d with diffIt := d.diffIt.Next.2 } ∧
      (d.onDiff val rest).diffIt.Value = some val := by
  simp [mergeIterator.onDiff, DiffIterator.Next, DiffIterator.Value, DiffIterator.advance, h]

/-! ## The per-diff policy of `Next` -/

/-- C1. When the diff stream's next entry is a Changed diff at key `k`, and the sorted base
has a record at `k` whose Identity differs both from the diff's OldIdentity and from the
Identity of the diff's new value, `Next()` returns false, `Value()` is unchanged (no record
is emitted) and `Err()` is `ErrConflictFound`. -/
theorem next_changed_conflict (d : mergeIterator) (diff : Diff) (rest : List Diff)
    (r : ValueRecord) (bv nv : Value)
    (hnext : d.diffIt.rest = diff :: rest) (htyp : diff.Typ = .DiffTypeChanged)
    (hnew : diff.Value = some nv)
    (hsorted : d.base.Sorted) (hmem : r ∈ d.base.records) (hkey : r.Key = diff.Key)
    (hbv : r.Value = some bv)
    (hold : bv.Identity ≠ diff.OldIdentity) (hnv : bv.Identity ≠ nv.Identity) :
    ∃ d1, d.Next = .ok (false, d1) ∧ d1.Value = d.Value ∧
      d1.Err = some .ErrConflictFound := by
  have hb : ((d.onDiff diff rest).valueFromBase diff.Key).1 = some r :=
    valueFromBase_found _ _ _ hsorted hmem hkey
  refine ⟨{ d.lookedUp diff rest with err := some .ErrConflictFound }, ?_, ?_, ?_⟩
  · rw [Next_of_rest d _ hnext]
    simp only [mergeIterator.nextLoop, htyp, hb, hbv, hnew]
    rw [if_neg hnv, if_pos hold]
    rfl
  · simp [mergeIterator.Value, lookedUp_val]
  · rfl

/-- Witness of C1: base `k1:i1`, diff stream `Changed k1 (new i1b, old i1a), Added k2`. -/
theorem next_changed_conflict_witness :
    ∃ d1, (mergeOf [changed k1 i1b i1a, added k2 i2] [recordOf k1 i1]).Next = .ok (false, d1) ∧
      d1.Value = none ∧ d1.Err = some .ErrConflictFound :=
  next_changed_conflict (mergeOf [changed k1 i1b i1a, added k2 i2] [recordOf k1 i1])
    (changed k1 i1b i1a) [added k2 i2] (recordOf k1 i1) (valueOf i1) (valueOf i1b)
    rfl rfl rfl (by decide) (by decide) rfl rfl (by decide) (by decide)

/-- C2. When the diff stream's next entry is a Changed diff at key `k` whose new value has
an Identity different from its OldIdentity, and the sorted base has a record at `k` with
Identity equal to the diff's OldIdentity, `Next()` returns true, `Value()` is the record
with key `k` and the diff's new value, and `Err()` is left as it was (it stays nil). -/
theorem next_changed_emit (d : mergeIterator) (diff : Diff) (rest : List Diff)
    (r : ValueRecord) (bv nv : Value)
    (hnext : d.diffIt.rest = diff :: rest) (htyp : diff.Typ = .DiffTypeChanged)
    (hnew : diff.Value = some nv) (hdiff : nv.Identity ≠ diff.OldIdentity)
    (hsorted : d.base.Sorted) (hmem : r ∈ d.base.records) (hkey : r.Key = diff.Key)
    (hbv : r.Value = some bv) (hold : bv.Identity = diff.OldIdentity) :
    ∃ d1, d.Next = .ok (true, d1) ∧
      d1.Value = some { Key := diff.Key, Value := diff.Value } ∧ d1.Err = d.Err := by
  have hb : ((d.onDiff diff rest).valueFromBase diff.Key).1 = some r :=
    valueFromBase_found _ _ _ hsorted hmem hkey
  have hne : ¬ bv.Identity = nv.Identity := fun h => hdiff (h.symm.trans hold)
  refine ⟨{ d.lookedUp diff rest with val := some diff.record }, ?_, ?_, ?_⟩
  · rw [Next_of_rest d _ hnext]
    simp only [mergeIterator.nextLoop, htyp, hb, hbv, hnew]
    rw [if_neg hne, if_neg (not_not.mpr hold)]
    exact lookedUp_emit d diff rest
  · simp [mergeIterator.Value, Diff.record, htyp]
  · simp [mergeIterator.Err, lookedUp_err]

/-- Witness of C2: base `k1:i1`, diff stream `Changed k1 (new i1a, old i1)`. -/
theorem next_changed_emit_witness :
    ∃ d1, (mergeOf [changed k1 i1a i1] [recordOf k1 i1]).Next = .ok (true, d1) ∧
      d1.Value = some { Key := k1, Value := some (valueOf i1a) } ∧ d1.Err = none :=
  next_changed_emit (mergeOf [changed k1 i1a i1] [recordOf k1 i1])
    (changed k1 i1a i1) [] (recordOf k1 i1) (valueOf i1) (valueOf i1a)
    rfl rfl rfl (by decide) (by decide) (by decide) rfl rfl rfl

/-- An Added diff at a key the base has no record for is emitted. -/
theorem next_added_absent (d : mergeIterator) (diff : Diff) (rest : List Diff)
    (hnext : d.diffIt.rest = diff :: rest) (htyp : diff.Typ = .DiffTypeAdded)
    (habs : ∀ r ∈ d.base.records, r.Key ≠ diff.Key) :
    d.Next = .ok (true, { d.lookedUp diff rest with val := some diff.record }) := by
  have hb : ((d.onDiff diff rest).valueFromBase diff.Key).1 = none :=
    valueFromBase_absent _ _ habs
  rw [Next_of_rest d _ hnext]
  simp only [mergeIterator.nextLoop, htyp, hb]
  exact lookedUp_emit d diff rest

/-- Draining a stream of Added diffs over an empty base emits every diff. -/
theorem drainLoop_added : ∀ (l : List Diff) (d : mergeIterator)
    (acc : List (Option ValueRecord)),
    d.diffIt.rest = l → d.base.Data = [] → (∀ x ∈ l, x.Typ = .DiffTypeAdded) →
    ∃ d1, mergeIterator.drainLoop (l.length + 1) d acc =
        .ok (acc ++ l.map (fun x => some { Key := x.Key, Value := x.Value }), d1) ∧
      d1.err = d.err := by
  intro l
  induction l with
  | nil =>
    intro d acc hrest _ _
    refine ⟨{ d with diffIt := d.diffIt.finish }, ?_, rfl⟩
    simp [mergeIterator.drainLoop, Next_of_rest d _ hrest, mergeIterator.nextLoop]
  | cons x t ih =>
    intro d acc hrest hbase hall
    have habs : ∀ r ∈ d.base.records, r.Key ≠ x.Key := by
      intro r hr
      simp [Iterator.records, hbase] at hr
    have hx : x.Typ = .DiffTypeAdded := hall x (List.mem_cons_self _ _)
    have hstep := next_added_absent d x t hrest hx habs
    obtain ⟨d1, h1, h2⟩ := ih { d.lookedUp x t with val := some x.record }
      (acc ++ [some x.record])
      (by show (d.lookedUp x t).diffIt.rest = t; rw [lookedUp_diffIt]; rfl)
      (by show (d.lookedUp x t).base.Data = []; rw [lookedUp_base_Data]; exact hbase)
      (fun y hy => hall y (List.mem_cons_of_mem _ hy))
    refine ⟨d1, ?_, ?_⟩
    · have hrec : x.record = { Key := x.Key, Value := x.Value } := by
        simp [Diff.record, hx]
      rw [List.length_cons, mergeIterator.drainLoop, hstep]
      simp only [mergeIterator.Value]
      rw [h1, hrec]
      simp
    · rw [h2]; exact lookedUp_err d x t

/-- C3, as the code has it. When the diff stream's next entry is an Added diff at key `k`
and the base has no record at exactly `k`, `Next()` returns true, `Value()` is the record
with key `k` and the diff's value, and `Err()` is left as it was before the call: nil
unless a conflict was recorded earlier. In particular, draining a newly made merge iterator
over a stream of Added diffs only and an empty base emits one record per diff, in the order
of the stream, and ends with `Err()` nil. -/
theorem next_added_emit :
    (∀ (d : mergeIterator) (diff : Diff) (rest : List Diff),
      d.diffIt.rest = diff :: rest → diff.Typ = .DiffTypeAdded →
      (∀ r ∈ d.base.records, r.Key ≠ diff.Key) →
      ∃ d1, d.Next = .ok (true, d1) ∧
        d1.Value = some { Key := diff.Key, Value := diff.Value } ∧ d1.Err = d.Err) ∧
    (∀ (diffs : List Diff) (base : Iterator),
      base.Data = [] → (∀ x ∈ diffs, x.Typ = .DiffTypeAdded) →
      ∃ d1, (NewMergeIterator (NewDiffStream diffs) base).drain =
          .ok (diffs.map (fun x => some { Key := x.Key, Value := x.Value }), d1) ∧
        d1.Err = none) := by
  constructor
  · intro d diff rest hnext htyp habs
    refine ⟨_, next_added_absent d diff rest hnext htyp habs, ?_, ?_⟩
    · simp [mergeIterator.Value, Diff.record, htyp]
    · simp [mergeIterator.Err, lookedUp_err]
  · intro diffs base hbase hall
    obtain ⟨d1, h1, h2⟩ := drainLoop_added diffs (NewMergeIterator (NewDiffStream diffs) base)
      [] rfl hbase hall
    exact ⟨d1, by simpa [mergeIterator.drain, NewMergeIterator, NewDiffStream] using h1, h2⟩

/-- Witness of the amended C3: the first scenario of the test, base empty and diff stream
`Added k1/i1, Added k2/i2`. -/
theorem next_added_emit_witness :
    (∃ d1, (mergeOf [added k1 i1, added k2 i2] []).Next = .ok (true, d1) ∧
        d1.Value = some { Key := k1, Value := some (valueOf i1) } ∧ d1.Err = none) ∧
    (∃ d1, (mergeOf [added k1 i1, added k2 i2] []).drain =
        .ok ([some (recordOf k1 i1), some (recordOf k2 i2)], d1) ∧ d1.Err = none) :=
  ⟨next_added_emit.1 (mergeOf [added k1 i1, added k2 i2] []) (added k1 i1) [added k2 i2]
      rfl rfl (by decide),
    next_added_emit.2 [added k1 i1, added k2 i2] (NewBaseOfRecords []) rfl (by decide)⟩


/-- Counterexample to C3 as stated: over an empty base and the diff stream
`Changed k1 (new i1b, old i1a), Added k2/i2`, the first call of `Next()` returns false
with `ErrConflictFound`; the stream's next entry is then the Added diff at `k2`, which the
base lacks, and the next call returns true with the record of `k2` while `Err()` is
`ErrConflictFound`, not nil. -/
theorem next_added_emit_counterexample :
    ∃ d1 d2, (mergeOf [changed k1 i1b i1a, added k2 i2] []).Next = .ok (false, d1) ∧
      d1.diffIt.rest = [added k2 i2] ∧ d1.base.records = [] ∧
      d1.Next = .ok (true, d2) ∧ d2.Value = some (recordOf k2 i2) ∧
      d2.Err = some .ErrConflictFound ∧ d2.Err ≠ none :=
  ⟨_, _, rfl, rfl, rfl, rfl, rfl, rfl, by decide⟩

/-- C4. When the diff stream's next entry is an Added diff at key `k` and the sorted base
has a record at `k` whose Identity differs from the Identity of the diff's value, `Next()`
returns false, `Value()` is unchanged (no record is emitted) and `Err()` is
`ErrConflictFound`. -/
theorem next_added_conflict (d : mergeIterator) (diff : Diff) (rest : List Diff)
    (r : ValueRecord) (bv nv : Value)
    (hnext : d.diffIt.rest = diff :: rest) (htyp : diff.Typ = .DiffTypeAdded)
    (hnew : diff.Value = some nv)
    (hsorted : d.base.Sorted) (hmem : r ∈ d.base.records) (hkey : r.Key = diff.Key)
    (hbv : r.Value = some bv) (hnv : bv.Identity ≠ nv.Identity) :
    ∃ d1, d.Next = .ok (false, d1) ∧ d1.Value = d.Value ∧
      d1.Err = some .ErrConflictFound := by
  have hb : ((d.onDiff diff rest).valueFromBase diff.Key).1 = some r :=
    valueFromBase_found _ _ _ hsorted hmem hkey
  refine ⟨{ d.lookedUp diff rest with err := some .ErrConflictFound }, ?_, ?_, ?_⟩
  · rw [Next_of_rest d _ hnext]
    simp only [mergeIterator.nextLoop, htyp, hb, hbv, hnew]
    rw [if_pos hnv]
    rfl
  · simp [mergeIterator.Value, lookedUp_val]
  · rfl

/-- Witness of C4: base `k1:i1`, diff stream `Added k1/i1a`. -/
theorem next_added_conflict_witness :
    ∃ d1, (mergeOf [added k1 i1a] [recordOf k1 i1]).Next = .ok (false, d1) ∧
      d1.Value = none ∧ d1.Err = some .ErrConflictFound :=
  next_added_conflict (mergeOf [added k1 i1a] [recordOf k1 i1])
    (added k1 i1a) [] (recordOf k1 i1) (valueOf i1) (valueOf i1a)
    rfl rfl rfl (by decide) (by decide) rfl rfl (by decide)

/-- C5, as the code has it. When the diff stream's next entry is a Removed diff at key `k`
and the sorted base has a record at `k` with Identity equal to the diff's OldIdentity,
`Next()` returns true, `Value()` is the tombstone with key `k` and a nil value, and `Err()`
is left as it was before the call: nil unless a conflict was recorded earlier. -/
theorem next_removed_emit (d : mergeIterator) (diff : Diff) (rest : List Diff)
    (r : ValueRecord) (bv : Value)
    (hnext : d.diffIt.rest = diff :: rest) (htyp : diff.Typ = .DiffTypeRemoved)
    (hsorted : d.base.Sorted) (hmem : r ∈ d.base.records) (hkey : r.Key = diff.Key)
    (hbv : r.Value = some bv) (hold : bv.Identity = diff.OldIdentity) :
    ∃ d1, d.Next = .ok (true, d1) ∧
      d1.Value = some { Key := diff.Key, Value := none } ∧ d1.Err = d.Err := by
  have hb : ((d.onDiff diff rest).valueFromBase diff.Key).1 = some r :=
    valueFromBase_found _ _ _ hsorted hmem hkey
  refine ⟨{ d.lookedUp diff rest with val := some diff.record }, ?_, ?_, ?_⟩
  · rw [Next_of_rest d _ hnext]
    simp only [mergeIterator.nextLoop, htyp, hb, hbv]
    rw [if_pos hold]
    exact lookedUp_emit d diff rest
  · simp [mergeIterator.Value, Diff.record, htyp]
  · simp [mergeIterator.Err, lookedUp_err]

/-- Witness of the amended C5: base `k1:i1`, diff stream `Removed k1 (old i1)`. -/
theorem next_removed_emit_witness :
    ∃ d1, (mergeOf [removed k1 i1] [recordOf k1 i1]).Next = .ok (true, d1) ∧
      d1.Value = some { Key := k1, Value := none } ∧ d1.Err = none :=
  next_removed_emit (mergeOf [removed k1 i1] [recordOf k1 i1])
    (removed k1 i1) [] (recordOf k1 i1) (valueOf i1)
    rfl rfl (by decide) (by decide) rfl rfl rfl

/-- Counterexample to C5 as stated: over base `k1:i1, k2:i2` and the diff stream
`Added k1/i1a, Removed k2 (old i2)`, the first call of `Next()` returns false with
`ErrConflictFound`; the stream's next entry is then the Removed diff at `k2`, whose
OldIdentity is the base's, and the next call returns true with the tombstone of `k2` while
`Err()` is `ErrConflictFound`, not nil. -/
theorem next_removed_emit_counterexample :
    ∃ d1 d2, (mergeOf [added k1 i1a, removed k2 i2]
        [recordOf k1 i1, recordOf k2 i2]).Next = .ok (false, d1) ∧
      d1.diffIt.rest = [removed k2 i2] ∧
      d1.base.records = [recordOf k1 i1, recordOf k2 i2] ∧
      d1.Next = .ok (true, d2) ∧ d2.Value = some { Key := k2, Value := none } ∧
      d2.Err = some .ErrConflictFound ∧ d2.Err ≠ none :=
  ⟨_, _, rfl, rfl, rfl, rfl, rfl, rfl, by decide⟩

/-- C6. When the diff stream's next entry is a Removed diff at key `k` (the later keys of
the stream being greater) and the sorted base has a record at `k` whose Identity differs
from the diff's OldIdentity, the call of `Next()` that processes the diff sets the error to
`ErrConflictFound` and goes on with the following diffs: whenever it returns, `Err()` is
`ErrConflictFound`, and either it returned false with `Value()` unchanged or it returned
true with the record of a later diff, whose key is not `k`. On a stream whose added and
changed diffs carry a value, over a base whose records carry a value, it does return. -/
theorem next_removed_conflict (d : mergeIterator) (diff : Diff) (rest : List Diff)
    (r : ValueRecord) (bv : Value)
    (hnext : d.diffIt.rest = diff :: rest) (htyp : diff.Typ = .DiffTypeRemoved)
    (hinc : ∀ x ∈ rest, diff.Key < x.Key)
    (hsorted : d.base.Sorted) (hmem : r ∈ d.base.records) (hkey : r.Key = diff.Key)
    (hbv : r.Value = some bv) (hold : bv.Identity ≠ diff.OldIdentity) :
    d.Next = ({ d.lookedUp diff rest with err := some .ErrConflictFound }).Next ∧
    (∀ b d1, d.Next = .ok (b, d1) →
      d1.Err = some .ErrConflictFound ∧
      ((b = false ∧ d1.Value = d.Value) ∨
        (b = true ∧ ∃ x ∈ rest, d1.Value = some x.record ∧ x.record.Key ≠ diff.Key))) ∧
    ((∀ x ∈ rest, x.HasValue) → d.base.HasValues → ∃ b d1, d.Next = .ok (b, d1)) := by
  have hb : ((d.onDiff diff rest).valueFromBase diff.Key).1 = some r :=
    valueFromBase_found _ _ _ hsorted hmem hkey
  have hrest : ({ d.lookedUp diff rest with
      err := some GravelerError.ErrConflictFound } : mergeIterator).diffIt.rest = rest := by
    show (d.lookedUp diff rest).diffIt.rest = rest
    rw [lookedUp_diffIt]; rfl
  have heq : d.Next =
      ({ d.lookedUp diff rest with err := some .ErrConflictFound }).Next := by
    rw [Next_of_rest d _ hnext, Next_of_rest _ rest hrest]
    simp only [mergeIterator.nextLoop, htyp, hb, hbv]
    rw [if_neg hold]
    rfl
  refine ⟨heq, ?_, ?_⟩
  · intro b d1 h
    rw [heq, Next_of_rest _ rest hrest] at h
    obtain ⟨h1, h2, _⟩ := nextLoop_outcome rest _ b d1 h
    refine ⟨?_, ?_⟩
    · rcases h1 with h1 | h1 <;> exact h1
    · rcases h2 with ⟨hb2, hv⟩ | ⟨hb2, x, hx, hv⟩
      · exact Or.inl ⟨hb2, hv.trans (lookedUp_val d diff rest)⟩
      · refine Or.inr ⟨hb2, x, hx, hv, ?_⟩
        have hk : x.record.Key = x.Key := by
          unfold Diff.record; split <;> rfl
        rw [hk]
        exact ne_of_gt (hinc x hx)
  · intro hvals hbase
    rw [heq, Next_of_rest _ rest hrest]
    exact nextLoop_total rest _ hvals
      (HasValues_of_Data _ _ (lookedUp_base_Data d diff rest) hbase)

/-- Witness of C6: base `k1:i1`, diff stream `Removed k1 (old i1a), Added k2/i2`. -/
theorem next_removed_conflict_witness :
    ∃ b d1, (mergeOf [removed k1 i1a, added k2 i2] [recordOf k1 i1]).Next = .ok (b, d1) ∧
      d1.Err = some .ErrConflictFound ∧
      ((b = false ∧ d1.Value = none) ∨
        (b = true ∧ ∃ x ∈ [added k2 i2], d1.Value = some x.record ∧ x.record.Key ≠ k1)) := by
  have h := next_removed_conflict (mergeOf [removed k1 i1a, added k2 i2] [recordOf k1 i1])
    (removed k1 i1a) [added k2 i2] (recordOf k1 i1) (valueOf i1)
    rfl rfl (by decide) (by decide) (by decide) rfl rfl (by decide)
  obtain ⟨b, d1, hd⟩ := h.2.2 (by decide) (by decide)
  exact ⟨b, d1, hd, h.2.1 b d1 hd⟩


/-- A diff on which the loop of `Next` neither returns nor sets an error is skipped: the
call goes on as a call of `Next` on the following diffs, with the buffered record and the
error as they were, and what it emits, if anything, is the record of a later diff. -/
theorem next_skip (d : mergeIterator) (diff : Diff) (rest : List Diff)
    (hnext : d.diffIt.rest = diff :: rest)
    (hskip : d.nextLoop (diff :: rest) = (d.lookedUp diff rest).nextLoop rest) :
    d.Next = (d.lookedUp diff rest).Next ∧
    (d.lookedUp diff rest).Value = d.Value ∧
    (d.lookedUp diff rest).Err = d.Err ∧
    (d.lookedUp diff rest).diffIt.rest = rest ∧
    (∀ b d1, d.Next = .ok (b, d1) →
      (b = false ∧ d1.Value = d.Value) ∨
        (b = true ∧ ∃ x ∈ rest, d1.Value = some x.record)) := by
  have heq : d.Next = (d.lookedUp diff rest).Next := by
    rw [Next_of_rest d _ hnext, hskip, lookedUp_Next]
  refine ⟨heq, lookedUp_val d diff rest, lookedUp_err d diff rest, ?_, ?_⟩
  · rw [lookedUp_diffIt]; rfl
  · intro b d1 h
    rw [heq, ← lookedUp_Next] at h
    obtain ⟨_, h2, _⟩ := nextLoop_outcome rest _ b d1 h
    rcases h2 with ⟨hb2, hv⟩ | ⟨hb2, x, hx, hv⟩
    · exact Or.inl ⟨hb2, hv.trans (lookedUp_val d diff rest)⟩
    · exact Or.inr ⟨hb2, x, hx, hv⟩

/-- C7, as the code has it. When the diff stream's next entry is a Removed diff at key `k`
and the base has no record at exactly `k`, the call of `Next()` that processes the diff
reports no conflict for it: it goes on as a call of `Next()` on the following diffs, with
`Value()` and `Err()` as they were, and whatever it emits is the record of a later diff. -/
theorem next_removed_absent (d : mergeIterator) (diff : Diff) (rest : List Diff)
    (hnext : d.diffIt.rest = diff :: rest) (htyp : diff.Typ = .DiffTypeRemoved)
    (habs : ∀ r ∈ d.base.records, r.Key ≠ diff.Key) :
    d.Next = (d.lookedUp diff rest).Next ∧
    (d.lookedUp diff rest).Value = d.Value ∧
    (d.lookedUp diff rest).Err = d.Err ∧
    (d.lookedUp diff rest).diffIt.rest = rest ∧
    (∀ b d1, d.Next = .ok (b, d1) →
      (b = false ∧ d1.Value = d.Value) ∨
        (b = true ∧ ∃ x ∈ rest, d1.Value = some x.record)) := by
  have hb : ((d.onDiff diff rest).valueFromBase diff.Key).1 = none :=
    valueFromBase_absent _ _ habs
  apply next_skip d diff rest hnext
  simp only [mergeIterator.nextLoop, htyp, hb]
  rfl

/-- Witness of the amended C7: empty base, diff stream `Removed k1 (old i1), Added k2/i2`;
the call skips `k1` and emits the record of `k2` with no error. -/
theorem next_removed_absent_witness :
    ∃ d1, (mergeOf [removed k1 i1, added k2 i2] []).Next = .ok (true, d1) ∧
      d1.Value = some (recordOf k2 i2) ∧ d1.Err = none :=
  ⟨_, (next_removed_absent (mergeOf [removed k1 i1, added k2 i2] []) (removed k1 i1)
    [added k2 i2] rfl rfl (by decide)).1.trans rfl, rfl, rfl⟩

/-- Counterexample to C7 as stated: over an empty base, the diff stream `Removed k1 (old i1)`
makes `Next()` return false with `Err()` nil, not `ErrConflictFound`. -/
theorem next_removed_absent_counterexample :
    ∃ d1, (mergeOf [removed k1 i1] []).Next = .ok (false, d1) ∧
      d1.Err = none ∧ d1.Err ≠ some .ErrConflictFound :=
  ⟨_, rfl, rfl, by decide⟩

/-- C8. When the diff stream's next entry is a Changed diff at key `k` and the base has no
record at exactly `k` (it is empty, or its first key at or after `k` is greater), `Next()`
returns false, `Value()` is unchanged (no record is emitted) and `Err()` is
`ErrConflictFound`. -/
theorem next_changed_absent (d : mergeIterator) (diff : Diff) (rest : List Diff)
    (hnext : d.diffIt.rest = diff :: rest) (htyp : diff.Typ = .DiffTypeChanged)
    (habs : ∀ r ∈ d.base.records, r.Key ≠ diff.Key) :
    ∃ d1, d.Next = .ok (false, d1) ∧ d1.Value = d.Value ∧
      d1.Err = some .ErrConflictFound := by
  have hb : ((d.onDiff diff rest).valueFromBase diff.Key).1 = none :=
    valueFromBase_absent _ _ habs
  refine ⟨{ d.lookedUp diff rest with err := some .ErrConflictFound }, ?_, ?_, ?_⟩
  · rw [Next_of_rest d _ hnext]
    simp only [mergeIterator.nextLoop, htyp, hb]
    rfl
  · simp [mergeIterator.Value, lookedUp_val]
  · rfl

/-- Witness of C8: base `k0:i0`, diff stream `Changed k1 (new i1b, old i1a)`. -/
theorem next_changed_absent_witness :
    ∃ d1, (mergeOf [changed k1 i1b i1a] [recordOf k0 i0]).Next = .ok (false, d1) ∧
      d1.Value = none ∧ d1.Err = some .ErrConflictFound :=
  next_changed_absent (mergeOf [changed k1 i1b i1a] [recordOf k0 i0])
    (changed k1 i1b i1a) [] rfl rfl (by decide)

/-- C9. When the diff stream's next entry is a Changed diff at key `k`, whatever its
OldIdentity, and the sorted base has a record at `k` with Identity equal to the Identity of
the diff's new value, `Next()` emits nothing for `k` and sets no error: it goes on as a call
of `Next()` on the following diffs, with `Value()` and `Err()` as they were, and whatever it
emits is the record of a later diff. -/
theorem next_changed_noop (d : mergeIterator) (diff : Diff) (rest : List Diff)
    (r : ValueRecord) (bv nv : Value)
    (hnext : d.diffIt.rest = diff :: rest) (htyp : diff.Typ = .DiffTypeChanged)
    (hnew : diff.Value = some nv)
    (hsorted : d.base.Sorted) (hmem : r ∈ d.base.records) (hkey : r.Key = diff.Key)
    (hbv : r.Value = some bv) (hsame : bv.Identity = nv.Identity) :
    d.Next = (d.lookedUp diff rest).Next ∧
    (d.lookedUp diff rest).Value = d.Value ∧
    (d.lookedUp diff rest).Err = d.Err ∧
    (d.lookedUp diff rest).diffIt.rest = rest ∧
    (∀ b d1, d.Next = .ok (b, d1) →
      (b = false ∧ d1.Value = d.Value) ∨
        (b = true ∧ ∃ x ∈ rest, d1.Value = some x.record)) := by
  have hb : ((d.onDiff diff rest).valueFromBase diff.Key).1 = some r :=
    valueFromBase_found _ _ _ hsorted hmem hkey
  apply next_skip d diff rest hnext
  simp only [mergeIterator.nextLoop, htyp, hb, hbv, hnew]
  rw [if_pos hsame]
  rfl

/-- Witness of C9: base `k1:i1, k2:i2`, diff stream `Changed k1 (new i1, old i2),
Changed k2 (new i2a, old i2)`; the call skips `k1` and emits the change of `k2`. -/
theorem next_changed_noop_witness :
    ∃ d1, (mergeOf [changed k1 i1 i2, changed k2 i2a i2]
        [recordOf k1 i1, recordOf k2 i2]).Next = .ok (true, d1) ∧
      d1.Value = some (recordOf k2 i2a) ∧ d1.Err = none :=
  ⟨_, (next_changed_noop (mergeOf [changed k1 i1 i2, changed k2 i2a i2]
      [recordOf k1 i1, recordOf k2 i2]) (changed k1 i1 i2) [changed k2 i2a i2]
      (recordOf k1 i1) (valueOf i1) (valueOf i1)
      rfl rfl rfl (by decide) (by decide) rfl rfl rfl).1.trans rfl, rfl, rfl⟩

/-- C10. When the diff stream's next entry is an Added diff at key `k` and the sorted base
has a record at `k` with Identity equal to the Identity of the diff's value, `Next()` emits
nothing for `k` and sets no error: it goes on as a call of `Next()` on the following diffs,
with `Value()` and `Err()` as they were, and whatever it emits is the record of a later
diff. -/
theorem next_added_noop (d : mergeIterator) (diff : Diff) (rest : List Diff)
    (r : ValueRecord) (bv nv : Value)
    (hnext : d.diffIt.rest = diff :: rest) (htyp : diff.Typ = .DiffTypeAdded)
    (hnew : diff.Value = some nv)
    (hsorted : d.base.Sorted) (hmem : r ∈ d.base.records) (hkey : r.Key = diff.Key)
    (hbv : r.Value = some bv) (hsame : bv.Identity = nv.Identity) :
    d.Next = (d.lookedUp diff rest).Next ∧
    (d.lookedUp diff rest).Value = d.Value ∧
    (d.lookedUp diff rest).Err = d.Err ∧
    (d.lookedUp diff rest).diffIt.rest = rest ∧
    (∀ b d1, d.Next = .ok (b, d1) →
      (b = false ∧ d1.Value = d.Value) ∨
        (b = true ∧ ∃ x ∈ rest, d1.Value = some x.record)) := by
  have hb : ((d.onDiff diff rest).valueFromBase diff.Key).1 = some r :=
    valueFromBase_found _ _ _ hsorted hmem hkey
  apply next_skip d diff rest hnext
  simp only [mergeIterator.nextLoop, htyp, hb, hbv, hnew]
  rw [if_neg (not_not.mpr hsame)]
  rfl

/-- Witness of C10: base `k1:i1`, diff stream `Added k1/i1, Added k2/i2`; the call skips
`k1` and emits the record of `k2`. -/
theorem next_added_noop_witness :
    ∃ d1, (mergeOf [added k1 i1, added k2 i2] [recordOf k1 i1]).Next = .ok (true, d1) ∧
      d1.Value = some (recordOf k2 i2) ∧ d1.Err = none :=
  ⟨_, (next_added_noop (mergeOf [added k1 i1, added k2 i2] [recordOf k1 i1])
      (added k1 i1) [added k2 i2] (recordOf k1 i1) (valueOf i1) (valueOf i1)
      rfl rfl rfl (by decide) (by decide) rfl rfl rfl).1.trans rfl, rfl, rfl⟩


/-! ## Draining, diff by diff -/

theorem valueFromBase_eq_baseAt (d : mergeIterator) (key : Key) :
    (d.valueFromBase key).1 = baseAt d.base.Data key := by
  rw [valueFromBase_fst]; rfl

/-- One round of the loop of `Next`, by the verdict on the diff. -/
theorem nextLoop_cons (d : mergeIterator) (x : Diff) (t : List Diff) :
    d.nextLoop (x :: t) =
      match verdict (baseAt d.base.Data x.Key) x with
      | .emit => .ok (true, { d.lookedUp x t with val := some x.record })
      | .skip => (d.lookedUp x t).nextLoop t
      | .stop => .ok (false, { d.lookedUp x t with err := some .ErrConflictFound })
      | .mark => ({ d.lookedUp x t with err := some .ErrConflictFound }).nextLoop t
      | .crash => .nilDeref := by
  have hb : ((d.onDiff x t).valueFromBase x.Key).1 = baseAt d.base.Data x.Key :=
    valueFromBase_eq_baseAt _ _
  have he := lookedUp_emit d x t
  simp only [mergeIterator.nextLoop, hb]
  unfold verdict
  generalize baseAt d.base.Data x.Key = bval
  rcases bval with _ | ⟨bk, _ | b⟩ <;> rcases x with ⟨_ | _ | _, key, _ | v, old⟩ <;>
    dsimp only <;>
    first
      | rfl
      | exact he
      | (split <;> first | rfl | exact he | (split <;> first | rfl | exact he))

/-- The driver loop sees a merge iterator only through its `Next`. -/
theorem drainLoop_congr (d e : mergeIterator) (h : d.Next = e.Next) (n : Nat)
    (acc : List (Option ValueRecord)) :
    mergeIterator.drainLoop n d acc = mergeIterator.drainLoop n e acc := by
  cases n with
  | zero => rfl
  | succ m => simp only [mergeIterator.drainLoop, h]

theorem lookedUp_rest (d : mergeIterator) (x : Diff) (t : List Diff) :
    (d.lookedUp x t).diffIt.rest = t := by
  rw [lookedUp_diffIt]; rfl

/-- Draining refines the plan: with enough fuel, what is observed of the drained iterator is
what the plan computes from the unreached diffs, the base and the error so far. -/
theorem drainLoop_plan : ∀ (l : List Diff) (d : mergeIterator)
    (acc : List (Option ValueRecord)) (n : Nat),
    d.diffIt.rest = l → l.length < n →
    observe (mergeIterator.drainLoop n d acc) =
      (plan d.base.Data l d.err).map (fun q => (acc ++ q.1, q.2)) := by
  intro l
  induction l with
  | nil =>
    intro d acc n hrest hn
    obtain ⟨m, rfl⟩ : ∃ m, n = m + 1 := ⟨n - 1, by simp at hn; omega⟩
    simp [mergeIterator.drainLoop, Next_of_rest d _ hrest, mergeIterator.nextLoop, observe,
      plan, Exec.map, mergeIterator.Err, DiffIterator.Value, DiffIterator.finish]
  | cons x t ih =>
    intro d acc n hrest hn
    obtain ⟨m, rfl⟩ : ∃ m, n = m + 1 := ⟨n - 1, by simp at hn; omega⟩
    have hm : t.length < m := by simpa using hn
    have hstep := nextLoop_cons d x t
    cases hv : verdict (baseAt d.base.Data x.Key) x with
    | emit =>
      rw [hv] at hstep
      have h1 := ih { d.lookedUp x t with val := some x.record } (acc ++ [some x.record]) m
        (lookedUp_rest d x t) hm
      have hdata : ({ d.lookedUp x t with val := some x.record } : mergeIterator).base.Data
          = d.base.Data := lookedUp_base_Data d x t
      have herr : ({ d.lookedUp x t with val := some x.record } : mergeIterator).err
          = d.err := lookedUp_err d x t
      rw [hdata, herr] at h1
      simp only [mergeIterator.drainLoop, Next_of_rest d _ hrest, hstep, plan, hv]
      simp only [mergeIterator.Value]
      rw [h1]
      cases plan d.base.Data t d.err <;> simp [Exec.map]
    | skip =>
      rw [hv] at hstep
      have hnext : d.Next = (d.lookedUp x t).Next := by
        rw [Next_of_rest d _ hrest, hstep, lookedUp_Next]
      have h1 := ih (d.lookedUp x t) acc (m + 1) (lookedUp_rest d x t) (by omega)
      rw [lookedUp_base_Data, lookedUp_err] at h1
      rw [drainLoop_congr d _ hnext, h1]
      simp only [plan, hv]
    | stop =>
      rw [hv] at hstep
      simp [mergeIterator.drainLoop, Next_of_rest d _ hrest, hstep, plan, hv, observe,
        Exec.map, mergeIterator.Err, DiffIterator.Value, lookedUp_diffIt,
        DiffIterator.advance]
    | mark =>
      rw [hv] at hstep
      have hr : ({ d.lookedUp x t with
          err := some GravelerError.ErrConflictFound } : mergeIterator).diffIt.rest = t :=
        lookedUp_rest d x t
      have hnext : d.Next =
          ({ d.lookedUp x t with err := some GravelerError.ErrConflictFound }).Next := by
        rw [Next_of_rest d _ hrest, hstep, Next_of_rest _ t hr]
      have h1 := ih { d.lookedUp x t with err := some GravelerError.ErrConflictFound }
        acc (m + 1) hr (by omega)
      have hdata : ({ d.lookedUp x t with
          err := some GravelerError.ErrConflictFound } : mergeIterator).base.Data
          = d.base.Data := lookedUp_base_Data d x t
      rw [hdata] at h1
      rw [drainLoop_congr d _ hnext, h1]
      simp only [plan, hv]
    | crash =>
      rw [hv] at hstep
      simp [mergeIterator.drainLoop, Next_of_rest d _ hrest, hstep, plan, hv, observe,
        Exec.map]

/-- Draining a merge iterator is observed as the plan over its unreached diffs. -/
theorem drain_plan (d : mergeIterator) :
    observe d.drain = plan d.base.Data d.diffIt.rest d.err := by
  unfold mergeIterator.drain
  rw [drainLoop_plan d.diffIt.rest d [] _ rfl (Nat.lt_succ_self _)]
  cases plan d.base.Data d.diffIt.rest d.err <;> simp [Exec.map]

/-! ## The two-way diff, key by key -/

theorem diffList_nil (right : Snapshot) : diffList [] right = right.map addedOf := rfl

theorem diffList_cons_nil (l : Key × Value) (ls : Snapshot) :
    diffList (l :: ls) [] = removedOf l :: diffList ls [] := rfl

theorem diffList_cons_cons (l : Key × Value) (ls : Snapshot) (r : Key × Value)
    (rs : Snapshot) :
    diffList (l :: ls) (r :: rs) =
      if l.1 < r.1 then removedOf l :: diffList ls (r :: rs)
      else if r.1 < l.1 then addedOf r :: diffList (l :: ls) rs
      else if l.2.Identity = r.2.Identity then diffList ls rs
      else changedOf l r :: diffList ls rs := rfl

/-- Induction along the merge-join. -/
theorem diffList_induct (P : Snapshot → Snapshot → Prop)
    (hnil : ∀ right, P [] right)
    (hright : ∀ l ls, P ls [] → P (l :: ls) [])
    (hlt : ∀ l ls r rs, l.1 < r.1 → P ls (r :: rs) → P (l :: ls) (r :: rs))
    (hgt : ∀ l ls r rs, r.1 < l.1 → P (l :: ls) rs → P (l :: ls) (r :: rs))
    (heq : ∀ l ls r rs, l.1 = r.1 → P ls rs → P (l :: ls) (r :: rs)) :
    ∀ left right, P left right := by
  intro left
  induction left with
  | nil => exact hnil
  | cons l ls ihl =>
    intro right
    induction right with
    | nil => exact hright l ls (ihl [])
    | cons r rs ihr =>
      by_cases h1 : l.1 < r.1
      · exact hlt l ls r rs h1 (ihl _)
      · by_cases h2 : r.1 < l.1
        · exact hgt l ls r rs h2 ihr
        · exact heq l ls r rs (le_antisymm (le_of_not_lt h2) (le_of_not_lt h1)) (ihl _)

theorem valueAt_none (s : Snapshot) (k : Key) (h : ∀ p ∈ s, p.1 ≠ k) : valueAt s k = none := by
  induction s with
  | nil => rfl
  | cons p t ih =>
    have hp : p.1 ≠ k := h p (List.mem_cons_self _ _)
    simp only [valueAt, if_neg hp]
    exact ih (fun q hq => h q (List.mem_cons_of_mem _ hq))

theorem valueAt_mem (s : Snapshot) (k : Key) (v : Value) (h : valueAt s k = some v) :
    (k, v) ∈ s := by
  induction s with
  | nil => simp [valueAt] at h
  | cons p t ih =>
    by_cases hp : p.1 = k
    · simp only [valueAt, if_pos hp, Option.some.injEq] at h
      have : p = (k, v) := Prod.ext hp h
      rw [this]; exact List.mem_cons_self _ _
    · simp only [valueAt, if_neg hp] at h
      exact List.mem_cons_of_mem _ (ih h)

theorem valueAt_cons_tail (p : Key × Value) (t : Snapshot) (k : Key) (h : p.1 ≠ k) :
    valueAt (p :: t) k = valueAt t k := by
  simp only [valueAt, if_neg h]

theorem valueAt_cons_head (p : Key × Value) (t : Snapshot) :
    valueAt (p :: t) p.1 = some p.2 := by
  simp only [valueAt, if_true]

theorem valueAt_of_mem (s : Snapshot) (hs : SortedSnapshot s) (p : Key × Value) (hp : p ∈ s) :
    valueAt s p.1 = some p.2 := by
  induction s with
  | nil => simp at hp
  | cons q t ih =>
    rw [SortedSnapshot, List.pairwise_cons] at hs
    rcases List.mem_cons.mp hp with h | h
    · rw [h]; exact valueAt_cons_head q t
    · rw [valueAt_cons_tail q t p.1 (ne_of_lt (hs.1 p h))]
      exact ih hs.2 h

theorem removedOf_eq (l : Key × Value) (k : Key) (h : l.1 = k) :
    removedOf (k, l.2) = removedOf l := by
  subst h; rfl

/-- The head of the left side, smaller than every key of the right side, is a removal. -/
theorem isDiffAt_left (l : Key × Value) (ls right : Snapshot) (x : Diff)
    (hs : SortedSnapshot (l :: ls)) (hr : ∀ p ∈ right, l.1 < p.1) :
    IsDiffAt (l :: ls) right x ↔ x = removedOf l ∨ IsDiffAt ls right x := by
  rw [SortedSnapshot, List.pairwise_cons] at hs
  unfold IsDiffAt
  by_cases hk : l.1 = x.Key
  · have h1 : valueAt right x.Key = none :=
      valueAt_none _ _ (fun p hp => hk ▸ (ne_of_gt (hr p hp)))
    have h2 : valueAt ls x.Key = none :=
      valueAt_none _ _ (fun p hp => hk ▸ (ne_of_gt (hs.1 p hp)))
    have h3 : valueAt (l :: ls) x.Key = some l.2 := by rw [← hk]; exact valueAt_cons_head l ls
    rw [h1, h2, h3]
    simp only [diffAt, Option.some.injEq, removedOf_eq l x.Key hk]
    constructor
    · intro h; exact Or.inl h.symm
    · rintro (h | h)
      · exact h.symm
      · exact absurd h (by simp)
  · rw [valueAt_cons_tail l ls x.Key hk]
    constructor
    · intro h; exact Or.inr h
    · rintro (h | h)
      · exact absurd (by rw [h]; rfl) hk
      · exact h

theorem addedOf_eq (r : Key × Value) (k : Key) (h : r.1 = k) :
    addedOf (k, r.2) = addedOf r := by
  subst h; rfl

/-- The head of the right side, smaller than every key of the left side, is an addition. -/
theorem isDiffAt_right (r : Key × Value) (rs left : Snapshot) (x : Diff)
    (hs : SortedSnapshot (r :: rs)) (hl : ∀ p ∈ left, r.1 < p.1) :
    IsDiffAt left (r :: rs) x ↔ x = addedOf r ∨ IsDiffAt left rs x := by
  rw [SortedSnapshot, List.pairwise_cons] at hs
  unfold IsDiffAt
  by_cases hk : r.1 = x.Key
  · have h1 : valueAt left x.Key = none :=
      valueAt_none _ _ (fun p hp => hk ▸ (ne_of_gt (hl p hp)))
    have h2 : valueAt rs x.Key = none :=
      valueAt_none _ _ (fun p hp => hk ▸ (ne_of_gt (hs.1 p hp)))
    have h3 : valueAt (r :: rs) x.Key = some r.2 := by rw [← hk]; exact valueAt_cons_head r rs
    rw [h1, h2, h3]
    simp only [diffAt, Option.some.injEq, addedOf_eq r x.Key hk]
    constructor
    · intro h; exact Or.inl h.symm
    · rintro (h | h)
      · exact h.symm
      · exact absurd h (by simp)
  · rw [valueAt_cons_tail r rs x.Key hk]
    constructor
    · intro h; exact Or.inr h
    · rintro (h | h)
      · exact absurd (by rw [h]; rfl) hk
      · exact h

theorem changedOf_eq (l r : Key × Value) (k : Key) (hl : l.1 = k) (hr : r.1 = k) :
    changedOf (k, l.2) (k, r.2) = changedOf l r := by
  subst hr; rfl

/-- Two heads at the same key are a change when their Identities differ, nothing otherwise. -/
theorem isDiffAt_both (l r : Key × Value) (ls rs : Snapshot) (x : Diff)
    (hl : SortedSnapshot (l :: ls)) (hr : SortedSnapshot (r :: rs)) (heq : l.1 = r.1) :
    IsDiffAt (l :: ls) (r :: rs) x ↔
      (l.2.Identity ≠ r.2.Identity ∧ x = changedOf l r) ∨ IsDiffAt ls rs x := by
  rw [SortedSnapshot, List.pairwise_cons] at hl hr
  unfold IsDiffAt
  by_cases hk : l.1 = x.Key
  · have hk2 : r.1 = x.Key := heq ▸ hk
    have h1 : valueAt ls x.Key = none :=
      valueAt_none _ _ (fun p hp => hk ▸ (ne_of_gt (hl.1 p hp)))
    have h2 : valueAt rs x.Key = none :=
      valueAt_none _ _ (fun p hp => hk2 ▸ (ne_of_gt (hr.1 p hp)))
    have h3 : valueAt (l :: ls) x.Key = some l.2 := by rw [← hk]; exact valueAt_cons_head l ls
    have h4 : valueAt (r :: rs) x.Key = some r.2 := by rw [← hk2]; exact valueAt_cons_head r rs
    rw [h1, h2, h3, h4]
    simp only [diffAt, changedOf_eq l r x.Key hk hk2]
    by_cases hid : l.2.Identity = r.2.Identity
    · simp [hid]
    · simp only [if_neg hid, Option.some.injEq]
      constructor
      · intro h; exact Or.inl ⟨hid, h.symm⟩
      · rintro (h | h)
        · exact h.2.symm
        · exact absurd h (by simp)
  · have hk2 : r.1 ≠ x.Key := heq ▸ hk
    rw [valueAt_cons_tail l ls x.Key hk, valueAt_cons_tail r rs x.Key hk2]
    constructor
    · intro h; exact Or.inr h
    · rintro (h | h)
      · exact absurd (by rw [h.2]; exact heq) hk
      · exact h

theorem sorted_tail (p : Key × Value) (t : Snapshot) (h : SortedSnapshot (p :: t)) :
    SortedSnapshot t := (List.pairwise_cons.mp h).2

theorem sorted_head_lt (p : Key × Value) (t : Snapshot) (h : SortedSnapshot (p :: t)) :
    ∀ q ∈ t, p.1 < q.1 := (List.pairwise_cons.mp h).1

/-- The stream of the diff engine over two sorted sides holds exactly the diffs the two
sides have key by key. -/
theorem mem_diffList : ∀ (left right : Snapshot),
    SortedSnapshot left → SortedSnapshot right →
    ∀ x, x ∈ diffList left right ↔ IsDiffAt left right x := by
  apply diffList_induct
  · intro right _ hr x
    rw [diffList_nil]
    induction right with
    | nil => simp [IsDiffAt, valueAt, diffAt]
    | cons r rs ih =>
      rw [isDiffAt_right r rs [] x hr (by simp), List.map_cons, List.mem_cons,
        ih (sorted_tail r rs hr)]
  · intro l ls ih hl hr x
    rw [diffList_cons_nil, List.mem_cons, ih (sorted_tail l ls hl) hr,
      isDiffAt_left l ls [] x hl (by simp)]
  · intro l ls r rs hlt ih hl hr x
    rw [diffList_cons_cons, if_pos hlt, List.mem_cons, ih (sorted_tail l ls hl) hr,
      isDiffAt_left l ls (r :: rs) x hl]
    intro p hp
    rcases List.mem_cons.mp hp with h | h
    · rw [h]; exact hlt
    · exact lt_trans hlt (sorted_head_lt r rs hr p h)
  · intro l ls r rs hgt ih hl hr x
    rw [diffList_cons_cons, if_neg (not_lt_of_gt hgt), if_pos hgt, List.mem_cons,
      ih hl (sorted_tail r rs hr), isDiffAt_right r rs (l :: ls) x hr]
    intro p hp
    rcases List.mem_cons.mp hp with h | h
    · rw [h]; exact hgt
    · exact lt_trans hgt (sorted_head_lt l ls hl p h)
  · intro l ls r rs heq ih hl hr x
    rw [diffList_cons_cons, if_neg (by rw [heq]; exact lt_irrefl _),
      if_neg (by rw [heq]; exact lt_irrefl _),
      isDiffAt_both l r ls rs x hl hr heq]
    by_cases hid : l.2.Identity = r.2.Identity
    · rw [if_pos hid, ih (sorted_tail l ls hl) (sorted_tail r rs hr)]
      simp [hid]
    · rw [if_neg hid, List.mem_cons, ih (sorted_tail l ls hl) (sorted_tail r rs hr)]
      simp [hid]

/-- The three shapes of a diff of the engine. -/
theorem isDiffAt_cases (left right : Snapshot) (x : Diff) (hx : IsDiffAt left right x) :
    (valueAt left x.Key = none ∧ ∃ r, valueAt right x.Key = some r ∧
      x.Typ = .DiffTypeAdded ∧ x.Value = some r) ∨
    (valueAt right x.Key = none ∧ ∃ l, valueAt left x.Key = some l ∧
      x.Typ = .DiffTypeRemoved ∧ x.Value = none ∧ x.OldIdentity = l.Identity) ∨
    (∃ l r, valueAt left x.Key = some l ∧ valueAt right x.Key = some r ∧
      l.Identity ≠ r.Identity ∧
      x.Typ = .DiffTypeChanged ∧ x.Value = some r ∧ x.OldIdentity = l.Identity) := by
  unfold IsDiffAt at hx
  cases hl : valueAt left x.Key with
  | none =>
    cases hr : valueAt right x.Key with
    | none => rw [hl, hr] at hx; simp [diffAt] at hx
    | some r =>
      rw [hl, hr] at hx
      simp only [diffAt, Option.some.injEq] at hx
      exact Or.inl ⟨rfl, r, rfl, by rw [← hx]; rfl, by rw [← hx]; rfl⟩
  | some l =>
    cases hr : valueAt right x.Key with
    | none =>
      rw [hl, hr] at hx
      simp only [diffAt, Option.some.injEq] at hx
      exact Or.inr (Or.inl ⟨rfl, l, rfl, by rw [← hx]; rfl, by rw [← hx]; rfl,
        by rw [← hx]; rfl⟩)
    | some r =>
      rw [hl, hr] at hx
      by_cases hid : l.Identity = r.Identity
      · simp [diffAt, hid] at hx
      · simp only [diffAt, if_neg hid, Option.some.injEq] at hx
        exact Or.inr (Or.inr ⟨l, r, rfl, rfl, hid, by rw [← hx]; rfl, by rw [← hx]; rfl,
          by rw [← hx]; rfl⟩)

/-- A diff of the engine stands at a key of one of the two sides. -/
theorem isDiffAt_key (left right : Snapshot) (x : Diff) (hx : IsDiffAt left right x) :
    (∃ p ∈ left, p.1 = x.Key) ∨ (∃ p ∈ right, p.1 = x.Key) := by
  rcases isDiffAt_cases left right x hx with ⟨_, r, hr, _⟩ | ⟨_, l, hl, _⟩ | ⟨l, _, hl, _⟩
  · exact Or.inr ⟨_, valueAt_mem _ _ _ hr, rfl⟩
  · exact Or.inl ⟨_, valueAt_mem _ _ _ hl, rfl⟩
  · exact Or.inl ⟨_, valueAt_mem _ _ _ hl, rfl⟩

/-- The two sides of a diff of the engine have different Identities at its key. -/
theorem isDiffAt_ne (left right : Snapshot) (x : Diff) (hx : IsDiffAt left right x) :
    identityAt right x.Key ≠ identityAt left x.Key := by
  unfold identityAt
  rcases isDiffAt_cases left right x hx with ⟨hl, r, hr, _⟩ | ⟨hr, l, hl, _⟩ |
    ⟨l, r, hl, hr, hid, _⟩
  · simp [hl, hr]
  · simp [hl, hr]
  · rw [hl, hr]
    intro h
    exact hid (Option.some.inj h).symm

/-- Where the two sides have different Identities the engine has a diff. -/
theorem isDiffAt_of_ne (left right : Snapshot) (k : Key)
    (h : identityAt right k ≠ identityAt left k) :
    ∃ x, x.Key = k ∧ IsDiffAt left right x := by
  unfold identityAt at h
  cases hl : valueAt left k with
  | none =>
    cases hr : valueAt right k with
    | none => rw [hl, hr] at h; exact absurd rfl h
    | some r =>
      refine ⟨addedOf (k, r), rfl, ?_⟩
      show diffAt k (valueAt left k) (valueAt right k) = _
      rw [hl, hr]; rfl
  | some l =>
    cases hr : valueAt right k with
    | none =>
      refine ⟨removedOf (k, l), rfl, ?_⟩
      show diffAt k (valueAt left k) (valueAt right k) = _
      rw [hl, hr]; rfl
    | some r =>
      have hid : ¬ l.Identity = r.Identity := by
        intro hid
        apply h
        rw [hl, hr]
        simp [hid]
      refine ⟨changedOf (k, l) (k, r), rfl, ?_⟩
      show diffAt k (valueAt left k) (valueAt right k) = _
      rw [hl, hr]
      simp only [diffAt, if_neg hid]

/-- A diff of the engine carries a value unless it is a removal. -/
theorem isDiffAt_hasValue (left right : Snapshot) (x : Diff) (hx : IsDiffAt left right x) :
    x.HasValue := by
  rcases isDiffAt_cases left right x hx with ⟨_, r, _, _, hv⟩ | ⟨_, l, _, ht, _⟩ |
    ⟨l, r, _, _, _, _, hv, _⟩
  · exact Or.inr (by rw [hv]; simp)
  · exact Or.inl ht
  · exact Or.inr (by rw [hv]; simp)

/-- The stream of the diff engine over two sorted sides is strictly increasing by key. -/
theorem diffList_sorted : ∀ (left right : Snapshot),
    SortedSnapshot left → SortedSnapshot right →
    (diffList left right).Pairwise (fun a b => a.Key < b.Key) := by
  have key : ∀ (left right : Snapshot) (k : Key), SortedSnapshot left →
      SortedSnapshot right → (∀ p ∈ left, k < p.1) → (∀ p ∈ right, k < p.1) →
      ∀ x ∈ diffList left right, k < x.Key := by
    intro left right k hl hr h1 h2 x hx
    rcases isDiffAt_key left right x ((mem_diffList left right hl hr x).mp hx) with
      ⟨p, hp, hk⟩ | ⟨p, hp, hk⟩
    · rw [← hk]; exact h1 p hp
    · rw [← hk]; exact h2 p hp
  apply diffList_induct
  · intro right _ hr
    rw [diffList_nil, List.pairwise_map]
    exact hr
  · intro l ls ih hl hr
    rw [diffList_cons_nil, List.pairwise_cons]
    exact ⟨key ls [] l.1 (sorted_tail l ls hl) hr (sorted_head_lt l ls hl) (by simp),
      ih (sorted_tail l ls hl) hr⟩
  · intro l ls r rs hlt ih hl hr
    rw [diffList_cons_cons, if_pos hlt, List.pairwise_cons]
    refine ⟨key ls (r :: rs) l.1 (sorted_tail l ls hl) hr (sorted_head_lt l ls hl) ?_,
      ih (sorted_tail l ls hl) hr⟩
    intro p hp
    rcases List.mem_cons.mp hp with h | h
    · rw [h]; exact hlt
    · exact lt_trans hlt (sorted_head_lt r rs hr p h)
  · intro l ls r rs hgt ih hl hr
    rw [diffList_cons_cons, if_neg (not_lt_of_gt hgt), if_pos hgt, List.pairwise_cons]
    refine ⟨key (l :: ls) rs r.1 hl (sorted_tail r rs hr) ?_ (sorted_head_lt r rs hr),
      ih hl (sorted_tail r rs hr)⟩
    intro p hp
    rcases List.mem_cons.mp hp with h | h
    · rw [h]; exact hgt
    · exact lt_trans hgt (sorted_head_lt l ls hl p h)
  · intro l ls r rs heq ih hl hr
    rw [diffList_cons_cons, if_neg (by rw [heq]; exact lt_irrefl _),
      if_neg (by rw [heq]; exact lt_irrefl _)]
    have htail := ih (sorted_tail l ls hl) (sorted_tail r rs hr)
    by_cases hid : l.2.Identity = r.2.Identity
    · rw [if_pos hid]; exact htail
    · rw [if_neg hid, List.pairwise_cons]
      refine ⟨key ls rs r.1 (sorted_tail l ls hl) (sorted_tail r rs hr) ?_
        (sorted_head_lt r rs hr), htail⟩
      rw [← heq]; exact sorted_head_lt l ls hl

/-! ## The base snapshot and the verdicts over snapshots -/

theorem baseOf_records (s : Snapshot) :
    (baseOf s).records = s.map (fun p => { Key := p.1, Value := some p.2 }) := by
  unfold baseOf NewBaseOfRecords NewBase Iterator.records
  induction s with
  | nil => rfl
  | cons p t ih =>
    simp only [List.map_cons, List.filterMap_cons, BaseEntry.valueRecord]
    rw [ih]

theorem baseOf_sorted (s : Snapshot) (hs : SortedSnapshot s) : (baseOf s).Sorted := by
  constructor
  · show ((s.map _).map BaseEntry.record).Pairwise _
    rw [List.pairwise_map, List.pairwise_map]
    exact List.Pairwise.imp (fun h => le_of_lt h) hs
  · rw [baseOf_records, List.pairwise_map]
    exact hs

theorem baseOf_hasValues (s : Snapshot) : (baseOf s).HasValues := by
  intro r hr
  rw [baseOf_records] at hr
  obtain ⟨p, _, hp⟩ := List.mem_map.mp hr
  rw [← hp]
  simp

/-- Looking a key up in the base iterator of a sorted snapshot gives the snapshot's value. -/
theorem baseAt_baseOf (s : Snapshot) (hs : SortedSnapshot s) (k : Key) :
    baseAt (baseOf s).Data k =
      (valueAt s k).map (fun v => { Key := k, Value := some v }) := by
  cases hv : valueAt s k with
  | some v =>
    have hmem : ({ Key := k, Value := some v } : ValueRecord) ∈ (baseOf s).records := by
      rw [baseOf_records]
      exact List.mem_map.mpr ⟨(k, v), valueAt_mem s k v hv, rfl⟩
    have hsorted := baseOf_sorted s hs
    have hfound := lookupGE_found k { Key := k, Value := some v } rfl (baseOf s).Data
      hsorted.1 hsorted.2 hmem
    simp [baseAt, hfound]
  | none =>
    unfold baseAt
    cases hl : lookupGE (baseOf s).Data k with
    | none => rfl
    | some val =>
      have hmem : val ∈ (baseOf s).records := lookupGE_mem k val _ hl
      rw [baseOf_records] at hmem
      obtain ⟨p, hp, hpv⟩ := List.mem_map.mp hmem
      have hne : val.Key ≠ k := by
        intro hk
        have h1 := valueAt_of_mem s hs p hp
        have h2 : p.1 = k := by rw [← hk, ← hpv]
        rw [h2, hv] at h1
        exact absurd h1 (by simp)
      simp [hne]

/-- The verdict of `Next` on a diff of the engine, from the three snapshots: the diff is
skipped where ours has the base's Identity, emitted where theirs has it, and a conflict
otherwise, which ends the call unless the diff is a removal. -/
theorem verdict_of_snapshots (base theirs ours : Snapshot) (x : Diff)
    (hb : SortedSnapshot base) (hx : IsDiffAt theirs ours x) :
    verdict (baseAt (baseOf base).Data x.Key) x =
      if identityAt ours x.Key = identityAt base x.Key then .skip
      else if identityAt theirs x.Key = identityAt base x.Key then .emit
      else if valueAt ours x.Key = none then .mark
      else .stop := by
  rw [baseAt_baseOf base hb]
  unfold identityAt verdict
  rcases isDiffAt_cases theirs ours x hx with ⟨hl, r, hr, ht, hv⟩ |
    ⟨hr, l, hl, ht, hv, ho⟩ | ⟨l, r, hl, hr, hid, ht, hv, ho⟩
  · rw [hl, hr, ht, hv]
    cases valueAt base x.Key with
    | none => simp
    | some b =>
      by_cases h : b.Identity = r.Identity
      · simp [h]
      · have h2 : ¬ r.Identity = b.Identity := fun e => h e.symm
        simp [h, h2]
  · rw [hl, hr, ht, ho]
    cases valueAt base x.Key with
    | none => simp
    | some b =>
      by_cases h : b.Identity = l.Identity
      · simp [h]
      · have h2 : ¬ l.Identity = b.Identity := fun e => h e.symm
        simp [h, h2]
  · rw [hl, hr, ht, hv, ho]
    cases valueAt base x.Key with
    | none => simp
    | some b =>
      by_cases h : b.Identity = r.Identity
      · simp [h]
      · have h2 : ¬ r.Identity = b.Identity := fun e => h e.symm
        by_cases h3 : b.Identity = l.Identity
        · have h5 : ¬ r.Identity = l.Identity := fun e => hid e.symm
          simp [h, h2, h3, hid, h5]
        · have h4 : ¬ l.Identity = b.Identity := fun e => h3 e.symm
          simp [h, h2, h3, h4]

/-! ## What the plan computes -/

theorem observe_eq_ok (r : Exec (List (Option ValueRecord) × mergeIterator))
    (out : List (Option ValueRecord)) (e : Option GravelerError) (c : Option Diff)
    (h : observe r = .ok (out, e, c)) :
    ∃ d1, r = .ok (out, d1) ∧ d1.Err = e ∧ d1.diffIt.Value = c := by
  cases r with
  | ok p =>
    simp only [observe, Exec.map, Exec.ok.injEq, Prod.mk.injEq] at h
    exact ⟨p.2, by rw [← h.1], h.2.1, h.2.2⟩
  | nilDeref => simp [observe, Exec.map] at h
  | outOfFuel => simp [observe, Exec.map] at h

theorem map_eq_ok {α β : Type} (f : α → β) (r : Exec α) (b : β) (h : r.map f = .ok b) :
    ∃ a, r = .ok a ∧ f a = b := by
  cases r with
  | ok a => exact ⟨a, rfl, by simpa [Exec.map] using h⟩
  | nilDeref => simp [Exec.map] at h
  | outOfFuel => simp [Exec.map] at h

/-- Once set, the conflict stays in the plan. -/
theorem plan_sticky (data : List BaseEntry) : ∀ (l : List Diff)
    (out : List (Option ValueRecord)) (e1 : Option GravelerError) (c : Option Diff),
    plan data l (some .ErrConflictFound) = .ok (out, e1, c) →
      e1 = some .ErrConflictFound := by
  intro l
  induction l with
  | nil =>
    intro out e1 c h
    simp only [plan, Exec.ok.injEq, Prod.mk.injEq] at h
    exact h.2.1.symm
  | cons x t ih =>
    intro out e1 c h
    simp only [plan] at h
    cases hv : verdict (baseAt data x.Key) x with
    | emit =>
      rw [hv] at h
      obtain ⟨q, hq, hf⟩ := map_eq_ok _ _ _ h
      simp only [Prod.mk.injEq] at hf
      exact ih q.1 e1 c (by rw [hq, ← hf.2])
    | skip => rw [hv] at h; exact ih out e1 c h
    | stop =>
      rw [hv] at h
      simp only [Exec.ok.injEq, Prod.mk.injEq] at h
      exact h.2.1.symm
    | mark => rw [hv] at h; exact ih out e1 c h
    | crash => rw [hv] at h; simp at h

/-- A plan that ends without error met no conflict: every diff was emitted or skipped, and
the records are those of the emitted diffs, in order. -/
theorem plan_clean (data : List BaseEntry) : ∀ (l : List Diff)
    (out : List (Option ValueRecord)) (c : Option Diff),
    plan data l none = .ok (out, none, c) →
      (∀ x ∈ l, verdict (baseAt data x.Key) x = .emit ∨
        verdict (baseAt data x.Key) x = .skip) ∧
      out = (l.filter (fun x => decide (verdict (baseAt data x.Key) x = .emit))).map
        (fun x => some x.record) := by
  intro l
  induction l with
  | nil =>
    intro out c h
    simp only [plan, Exec.ok.injEq, Prod.mk.injEq] at h
    exact ⟨by simp, by rw [← h.1]; rfl⟩
  | cons x t ih =>
    intro out c h
    simp only [plan] at h
    cases hv : verdict (baseAt data x.Key) x with
    | emit =>
      rw [hv] at h
      obtain ⟨q, hq, hf⟩ := map_eq_ok _ _ _ h
      simp only [Prod.mk.injEq] at hf
      obtain ⟨h1, h2⟩ := ih q.1 c (by rw [hq, ← hf.2])
      refine ⟨?_, ?_⟩
      · intro y hy
        rcases List.mem_cons.mp hy with e | e
        · rw [e]; exact Or.inl hv
        · exact h1 y e
      · rw [← hf.1, h2]
        simp [List.filter_cons, hv]
    | skip =>
      rw [hv] at h
      obtain ⟨h1, h2⟩ := ih out c h
      refine ⟨?_, ?_⟩
      · intro y hy
        rcases List.mem_cons.mp hy with e | e
        · rw [e]; exact Or.inr hv
        · exact h1 y e
      · rw [h2]
        simp [List.filter_cons, hv]
    | stop => rw [hv] at h; simp at h
    | mark =>
      rw [hv] at h
      exact absurd (plan_sticky data t out none c h) (by simp)
    | crash => rw [hv] at h; simp at h

/-- When every diff is emitted or skipped, the plan ends with the error it started with. -/
theorem plan_of_clean (data : List BaseEntry) (e : Option GravelerError) :
    ∀ (l : List Diff),
    (∀ x ∈ l, verdict (baseAt data x.Key) x = .emit ∨
      verdict (baseAt data x.Key) x = .skip) →
    plan data l e =
      .ok ((l.filter (fun x => decide (verdict (baseAt data x.Key) x = .emit))).map
        (fun x => some x.record), e, none) := by
  intro l
  induction l with
  | nil => intro _; rfl
  | cons x t ih =>
    intro h
    have ht := ih (fun y hy => h y (List.mem_cons_of_mem _ hy))
    rcases h x (List.mem_cons_self _ _) with hv | hv
    · simp [plan, hv, ht, Exec.map, List.filter_cons]
    · simp [plan, hv, ht, List.filter_cons]

/-- The plan stops on the first diff whose verdict is `stop`, with what was emitted before. -/
theorem plan_stop (data : List BaseEntry) (e : Option GravelerError) (x : Diff)
    (post : List Diff) (hx : verdict (baseAt data x.Key) x = .stop) :
    ∀ (pre : List Diff),
    (∀ y ∈ pre, verdict (baseAt data y.Key) y = .emit ∨
      verdict (baseAt data y.Key) y = .skip) →
    plan data (pre ++ x :: post) e =
      .ok ((pre.filter (fun y => decide (verdict (baseAt data y.Key) y = .emit))).map
        (fun y => some y.record), some .ErrConflictFound, some x) := by
  intro pre
  induction pre with
  | nil => intro _; simp [plan, hx]
  | cons y t ih =>
    intro h
    have ht := ih (fun z hz => h z (List.mem_cons_of_mem _ hz))
    rcases h y (List.mem_cons_self _ _) with hv | hv
    · simp [plan, hv, ht, Exec.map, List.filter_cons]
    · simp [plan, hv, ht, List.filter_cons]

/-- Without a nil dereference the plan returns, and it ends in conflict exactly when it
started in conflict or some diff has the verdict `stop` or `mark`. -/
theorem plan_err (data : List BaseEntry) : ∀ (l : List Diff) (e : Option GravelerError),
    (∀ x ∈ l, verdict (baseAt data x.Key) x ≠ .crash) →
    ∃ out e1 c, plan data l e = .ok (out, e1, c) ∧
      (e1 = e ∨ e1 = some .ErrConflictFound) ∧
      (e1 = some .ErrConflictFound ↔
        (e = some .ErrConflictFound ∨
          ∃ x ∈ l, verdict (baseAt data x.Key) x = .stop ∨
            verdict (baseAt data x.Key) x = .mark)) := by
  intro l
  induction l with
  | nil =>
    intro e _
    exact ⟨[], e, none, rfl, Or.inl rfl, by simp⟩
  | cons x t ih =>
    intro e h
    have ht : ∀ y ∈ t, verdict (baseAt data y.Key) y ≠ .crash :=
      fun y hy => h y (List.mem_cons_of_mem _ hy)
    have hx := h x (List.mem_cons_self _ _)
    cases hv : verdict (baseAt data x.Key) x with
    | emit =>
      obtain ⟨out, e1, c, hp, h1, h2⟩ := ih e ht
      refine ⟨some x.record :: out, e1, c, by simp [plan, hv, hp, Exec.map], h1, ?_⟩
      rw [h2]
      simp [hv]
    | skip =>
      obtain ⟨out, e1, c, hp, h1, h2⟩ := ih e ht
      refine ⟨out, e1, c, by simp [plan, hv, hp], h1, ?_⟩
      rw [h2]
      simp [hv]
    | stop =>
      refine ⟨[], some .ErrConflictFound, some x, by simp [plan, hv], Or.inr rfl, ?_⟩
      simp [hv]
    | mark =>
      obtain ⟨out, e1, c, hp, h1, h2⟩ := ih (some .ErrConflictFound) ht
      have he1 : e1 = some .ErrConflictFound := by rcases h1 with h1 | h1 <;> exact h1
      refine ⟨out, e1, c, by simp [plan, hv, hp], Or.inr he1, ?_⟩
      simp [hv, he1]
    | crash => exact absurd hv hx

/-- Every record of the plan is the record of one of the diffs. -/
theorem plan_out_mem (data : List BaseEntry) : ∀ (l : List Diff) (e : Option GravelerError)
    (out : List (Option ValueRecord)) (e1 : Option GravelerError) (c : Option Diff),
    plan data l e = .ok (out, e1, c) → ∀ r ∈ out, ∃ x ∈ l, r = some x.record := by
  intro l
  induction l with
  | nil =>
    intro e out e1 c h r hr
    simp only [plan, Exec.ok.injEq, Prod.mk.injEq] at h
    rw [← h.1] at hr
    simp at hr
  | cons x t ih =>
    intro e out e1 c h r hr
    simp only [plan] at h
    cases hv : verdict (baseAt data x.Key) x with
    | emit =>
      rw [hv] at h
      obtain ⟨q, hq, hf⟩ := map_eq_ok _ _ _ h
      simp only [Prod.mk.injEq] at hf
      rw [← hf.1] at hr
      rcases List.mem_cons.mp hr with e2 | e2
      · exact ⟨x, List.mem_cons_self _ _, e2⟩
      · obtain ⟨y, hy, hr2⟩ := ih e q.1 q.2.1 q.2.2 hq r e2
        exact ⟨y, List.mem_cons_of_mem _ hy, hr2⟩
    | skip =>
      rw [hv] at h
      obtain ⟨y, hy, hr2⟩ := ih e out e1 c h r hr
      exact ⟨y, List.mem_cons_of_mem _ hy, hr2⟩
    | stop =>
      rw [hv] at h
      simp only [Exec.ok.injEq, Prod.mk.injEq] at h
      rw [← h.1] at hr
      simp at hr
    | mark =>
      rw [hv] at h
      obtain ⟨y, hy, hr2⟩ := ih _ out e1 c h r hr
      exact ⟨y, List.mem_cons_of_mem _ hy, hr2⟩
    | crash => rw [hv] at h; simp at h

/-! ## Verdicts and three-way conflicts -/

theorem verdict_ne_crash (base theirs ours : Snapshot) (x : Diff)
    (hb : SortedSnapshot base) (hx : IsDiffAt theirs ours x) :
    verdict (baseAt (baseOf base).Data x.Key) x ≠ .crash := by
  rw [verdict_of_snapshots base theirs ours x hb hx]
  split
  · simp
  · split
    · simp
    · split <;> simp

theorem verdict_conflict_iff (base theirs ours : Snapshot) (x : Diff)
    (hb : SortedSnapshot base) (hx : IsDiffAt theirs ours x) :
    (verdict (baseAt (baseOf base).Data x.Key) x = .stop ∨
      verdict (baseAt (baseOf base).Data x.Key) x = .mark) ↔
      ConflictAt base theirs ours x.Key := by
  rw [verdict_of_snapshots base theirs ours x hb hx]
  unfold ConflictAt
  have hne := isDiffAt_ne theirs ours x hx
  by_cases h1 : identityAt ours x.Key = identityAt base x.Key
  · simp [h1]
  · by_cases h2 : identityAt theirs x.Key = identityAt base x.Key
    · simp [h1, h2]
    · by_cases h3 : valueAt ours x.Key = none
      · simp [h1, h2, h3, hne]
      · simp [h1, h2, h3, hne]

theorem verdict_emit_iff (base theirs ours : Snapshot) (x : Diff)
    (hb : SortedSnapshot base) (hx : IsDiffAt theirs ours x) :
    verdict (baseAt (baseOf base).Data x.Key) x = .emit ↔
      (identityAt ours x.Key ≠ identityAt base x.Key ∧
        identityAt theirs x.Key = identityAt base x.Key) := by
  rw [verdict_of_snapshots base theirs ours x hb hx]
  by_cases h1 : identityAt ours x.Key = identityAt base x.Key
  · simp [h1]
  · by_cases h2 : identityAt theirs x.Key = identityAt base x.Key
    · simp [h1, h2]
    · by_cases h3 : valueAt ours x.Key = none
      · simp [h1, h2, h3]
      · simp [h1, h2, h3]

theorem verdict_skip_iff (base theirs ours : Snapshot) (x : Diff)
    (hb : SortedSnapshot base) (hx : IsDiffAt theirs ours x) :
    verdict (baseAt (baseOf base).Data x.Key) x = .skip ↔
      identityAt ours x.Key = identityAt base x.Key := by
  rw [verdict_of_snapshots base theirs ours x hb hx]
  by_cases h1 : identityAt ours x.Key = identityAt base x.Key
  · simp [h1]
  · by_cases h2 : identityAt theirs x.Key = identityAt base x.Key
    · simp [h1, h2]
    · by_cases h3 : valueAt ours x.Key = none
      · simp [h1, h2, h3]
      · simp [h1, h2, h3]

/-- Draining the merge of three snapshots is observed as the plan over their diff. -/
theorem drain_snapshots (base theirs ours : Snapshot) :
    observe (mergeOfSnapshots base theirs ours).drain =
      plan (baseOf base).Data (diffList theirs ours) none :=
  drain_plan (mergeOfSnapshots base theirs ours)

/-! ## Applying the emitted records -/

theorem applyRecords_cons (m : Key → Option Value) (r : Option ValueRecord)
    (rs : List (Option ValueRecord)) :
    applyRecords m (r :: rs) = applyRecords (applyRecord m r) rs := rfl

theorem applyRecords_append (m : Key → Option Value) (rs ss : List (Option ValueRecord)) :
    applyRecords m (rs ++ ss) = applyRecords (applyRecords m rs) ss := by
  unfold applyRecords
  rw [List.foldl_append]

/-- Records at other keys leave a key as it was. -/
theorem applyRecords_other (k : Key) : ∀ (l : List Diff) (m : Key → Option Value),
    (∀ y ∈ l, y.Key ≠ k) →
    applyRecords m (l.map (fun y => some y.record)) k = m k := by
  intro l
  induction l with
  | nil => intro m _; rfl
  | cons y t ih =>
    intro m h
    rw [List.map_cons, applyRecords_cons, ih _ (fun z hz => h z (List.mem_cons_of_mem _ hz))]
    have hy : y.Key ≠ k := h y (List.mem_cons_self _ _)
    have hrec : y.record.Key = y.Key := by unfold Diff.record; split <;> rfl
    simp only [applyRecord, hrec]
    rw [if_neg (fun e => hy e.symm)]

/-- The last record at a key decides the key. -/
theorem applyRecords_at (x : Diff) (pre post : List Diff) (m : Key → Option Value)
    (hpost : ∀ y ∈ post, y.Key ≠ x.Key) :
    applyRecords m ((pre ++ x :: post).map (fun y => some y.record)) x.Key =
      x.record.Value := by
  rw [List.map_append, applyRecords_append, List.map_cons, applyRecords_cons,
    applyRecords_other x.Key post _ hpost]
  have hrec : x.record.Key = x.Key := by unfold Diff.record; split <;> rfl
  simp only [applyRecord, hrec, if_true]

/-- The record of a diff of the engine holds the key and what ours has at the key. -/
theorem record_of_isDiffAt (left right : Snapshot) (x : Diff) (hx : IsDiffAt left right x) :
    x.record = { Key := x.Key, Value := x.Value } ∧ x.Value = valueAt right x.Key := by
  rcases isDiffAt_cases left right x hx with ⟨_, r, hr, ht, hv⟩ | ⟨hr, l, _, ht, hv, _⟩ |
    ⟨l, r, _, hr, _, ht, hv, _⟩
  · exact ⟨by simp [Diff.record, ht], by rw [hv, hr]⟩
  · exact ⟨by simp [Diff.record, ht, hv], by rw [hv, hr]⟩
  · exact ⟨by simp [Diff.record, ht], by rw [hv, hr]⟩

/-- Two diffs of the engine at the same key are the same diff. -/
theorem isDiffAt_unique (left right : Snapshot) (x y : Diff)
    (hx : IsDiffAt left right x) (hy : IsDiffAt left right y) (h : x.Key = y.Key) : x = y := by
  unfold IsDiffAt at hx hy
  rw [h] at hx
  exact Option.some.inj (hx.symm.trans hy)

/-- Applying the records of the diffs selected by `p` from a stream sorted by key: a selected
diff sets its key to its record's value, a diff left out leaves its key alone. -/
theorem applyRecords_filter (p : Diff → Bool) (m : Key → Option Value) (l : List Diff)
    (hs : l.Pairwise (fun a b => a.Key < b.Key)) (x : Diff) (hx : x ∈ l) :
    (p x = true →
      applyRecords m ((l.filter p).map (fun y => some y.record)) x.Key = x.record.Value) ∧
    (p x = false →
      applyRecords m ((l.filter p).map (fun y => some y.record)) x.Key = m x.Key) := by
  obtain ⟨pre, post, rfl⟩ := List.append_of_mem hx
  rw [List.pairwise_append] at hs
  obtain ⟨hpre, hpost, hcross⟩ := hs
  rw [List.pairwise_cons] at hpost
  have hlt : ∀ y ∈ pre, y.Key < x.Key := fun y hy => hcross y hy x (List.mem_cons_self _ _)
  constructor
  · intro hp
    rw [List.filter_append, List.filter_cons, if_pos hp]
    apply applyRecords_at
    intro y hy
    exact ne_of_gt (hpost.1 y (List.mem_of_mem_filter hy))
  · intro hp
    apply applyRecords_other
    intro y hy
    rw [List.filter_append, List.filter_cons, if_neg (by simp [hp]), List.mem_append] at hy
    rcases hy with hy | hy
    · exact ne_of_lt (hlt y (List.mem_of_mem_filter hy))
    · exact ne_of_gt (hpost.1 y (List.mem_of_mem_filter hy))

/-! ## Conflicts, faults and the end of a merge -/

/-- C11, the code at the failing input: with base `k1:i1`, theirs `k1:i1a` and ours `k2:i2`
the diff stream is `Removed k1 (old i1a), Added k2/i2`; the diff at `k1` sets
`ErrConflictFound`, yet the call of `Next()` that processed it returns true with the record
of `k2`, and a caller's loop collects that record. -/
theorem removed_conflict_goes_on :
    (mergeOfSnapshots [(k1, valueOf i1)] [(k1, valueOf i1a)] [(k2, valueOf i2)]).diffIt.rest =
      [removed k1 i1a, added k2 i2] ∧
    (∃ d1, (mergeOfSnapshots [(k1, valueOf i1)] [(k1, valueOf i1a)]
        [(k2, valueOf i2)]).Next = .ok (true, d1) ∧
      d1.Value = some (recordOf k2 i2) ∧ d1.Err = some .ErrConflictFound) ∧
    observe (mergeOfSnapshots [(k1, valueOf i1)] [(k1, valueOf i1a)]
        [(k2, valueOf i2)]).drain =
      .ok ([some (recordOf k2 i2)], some .ErrConflictFound, none) :=
  ⟨by decide, ⟨_, rfl, rfl, rfl⟩, by decide⟩

/-- C12, as the code has it. In a state in which `Err()` is `ErrConflictFound`, a further
call of `Next()` leaves `Err()` equal to `ErrConflictFound` whenever it returns, and when
the diff stream has no entry left it returns false, with `Value()` unchanged and the stream
still exhausted. -/
theorem conflict_sticky (d : mergeIterator) (h : d.Err = some .ErrConflictFound) :
    (∀ b d1, d.Next = .ok (b, d1) → d1.Err = some .ErrConflictFound) ∧
    (d.diffIt.rest = [] →
      ∃ d1, d.Next = .ok (false, d1) ∧ d1.Err = some .ErrConflictFound ∧
        d1.Value = d.Value ∧ d1.diffIt.rest = []) := by
  constructor
  · intro b d1 hn
    obtain ⟨h1, _, _⟩ := nextLoop_outcome d.diffIt.rest d b d1 hn
    rcases h1 with h1 | h1
    · exact h1.trans h
    · exact h1
  · intro hrest
    refine ⟨_, (Next_exhausted d hrest).2, h, rfl, ?_⟩
    simp [DiffIterator.Next, hrest, DiffIterator.finish]

/-- Witness of the amended C12: on a conflicted iterator whose diff stream has no entry
left, a further call returns false and the error stays. -/
theorem conflict_sticky_witness :
    ∃ d1, ({ mergeOf [] [recordOf k1 i1] with
        err := some GravelerError.ErrConflictFound } : mergeIterator).Next = .ok (false, d1) ∧
      d1.Err = some .ErrConflictFound ∧ d1.Value = none ∧ d1.diffIt.rest = [] :=
  (conflict_sticky { mergeOf [] [recordOf k1 i1] with
    err := some GravelerError.ErrConflictFound } rfl).2 rfl

/-- Counterexample to C12 as stated: over base `k1:i1` and the diff stream
`Added k1/i1a, Added k2/i2`, the first call of `Next()` returns false with
`ErrConflictFound`, and the next call returns true with the record of `k2`. -/
theorem conflict_sticky_counterexample :
    ∃ d1 d2, (mergeOf [added k1 i1a, added k2 i2] [recordOf k1 i1]).Next = .ok (false, d1) ∧
      d1.Err = some .ErrConflictFound ∧ d1.Next = .ok (true, d2) ∧
      d2.Value = some (recordOf k2 i2) :=
  ⟨_, _, rfl, rfl, rfl, rfl⟩

/-- C13, as the code has it. `Next()` never copies an error of an underlying iterator into
`Err()`: after a call `Err()` is what it was or `ErrConflictFound`. When the diff stream
has stopped with an error, `Next()` returns false and `Err()` is left as it was, so the
fault shows only in the diff iterator's own `Err()`. -/
theorem faults_not_reported (d : mergeIterator) :
    (∀ b d1, d.Next = .ok (b, d1) → d1.Err = d.Err ∨ d1.Err = some .ErrConflictFound) ∧
    (∀ e, d.diffIt.rest = [] → d.diffIt.fault = some e →
      ∃ d1, d.Next = .ok (false, d1) ∧ d1.diffIt.Err = some e ∧ d1.Err = d.Err) := by
  constructor
  · intro b d1 hn
    exact (nextLoop_outcome d.diffIt.rest d b d1 hn).1
  · intro e hrest hfault
    refine ⟨_, (Next_exhausted d hrest).2, ?_, rfl⟩
    simp [DiffIterator.Next, hrest, DiffIterator.finish, DiffIterator.Err, hfault]

/-- Witness of the amended C13: a diff stream that stops at once with a fault. -/
theorem faults_not_reported_witness :
    ∃ d1, (NewMergeIterator (NewFaultyDiffStream [] (.fault 1)) (NewBase [])).Next =
        .ok (false, d1) ∧
      d1.diffIt.Err = some (.fault 1) ∧ d1.Err = none :=
  (faults_not_reported (NewMergeIterator (NewFaultyDiffStream [] (.fault 1))
    (NewBase []))).2 (.fault 1) rfl rfl

/-- Counterexample to C13 as stated: the diff stream stops with a fault, `Next()` returns
false, and `Err()` of the merge iterator is nil, not the fault. -/
theorem faults_not_reported_counterexample :
    ∃ d1, (NewMergeIterator (NewFaultyDiffStream [] (.fault 1)) (NewBase [])).Next =
        .ok (false, d1) ∧
      d1.diffIt.Err = some (.fault 1) ∧ d1.Err = none ∧ d1.Err ≠ d1.diffIt.Err :=
  ⟨_, rfl, rfl, rfl, by decide⟩

/-- C14. For sorted snapshots base, theirs and ours, draining the merge of the diff from
theirs to ours against base returns, and it ends with `Err()` equal to `ErrConflictFound`
exactly when some key `k` has `ours(k) ≠ base(k)`, `theirs(k) ≠ base(k)` and
`ours(k) ≠ theirs(k)`; otherwise `Err()` is nil. -/
theorem drain_conflict_iff (base theirs ours : Snapshot)
    (hb : SortedSnapshot base) (ht : SortedSnapshot theirs) (ho : SortedSnapshot ours) :
    ∃ out d1, (mergeOfSnapshots base theirs ours).drain = .ok (out, d1) ∧
      (d1.Err = some .ErrConflictFound ↔ ∃ k, ConflictAt base theirs ours k) ∧
      ((¬ ∃ k, ConflictAt base theirs ours k) → d1.Err = none) := by
  have hmem := mem_diffList theirs ours ht ho
  have hnc : ∀ x ∈ diffList theirs ours,
      verdict (baseAt (baseOf base).Data x.Key) x ≠ .crash :=
    fun x hx => verdict_ne_crash base theirs ours x hb ((hmem x).mp hx)
  obtain ⟨out, e1, c, hp, h1, h2⟩ := plan_err (baseOf base).Data (diffList theirs ours) none hnc
  obtain ⟨d1, hd, he, _⟩ := observe_eq_ok _ out e1 c
    ((drain_snapshots base theirs ours).trans hp)
  have hiff : d1.Err = some .ErrConflictFound ↔ ∃ k, ConflictAt base theirs ours k := by
    rw [he, h2]
    constructor
    · rintro (h | ⟨x, hx, hv⟩)
      · exact absurd h (by simp)
      · exact ⟨x.Key, (verdict_conflict_iff base theirs ours x hb ((hmem x).mp hx)).mp hv⟩
    · rintro ⟨k, hk⟩
      obtain ⟨x, hxk, hx⟩ := isDiffAt_of_ne theirs ours k hk.2.2
      refine Or.inr ⟨x, (hmem x).mpr hx, ?_⟩
      exact (verdict_conflict_iff base theirs ours x hb hx).mpr (by rw [hxk]; exact hk)
  refine ⟨out, d1, hd, hiff, ?_⟩
  intro hno
  rcases h1 with h1 | h1
  · rw [he, h1]
  · exact absurd (hiff.mp (by rw [he, h1])) hno

/-- Witness of C14: base `k1:i1`, theirs `k1:i1a`, ours `k1:i1b, k2:i2`, which conflict at
`k1`. -/
theorem drain_conflict_iff_witness :
    ∃ out d1, (mergeOfSnapshots [(k1, valueOf i1)] [(k1, valueOf i1a)]
        [(k1, valueOf i1b), (k2, valueOf i2)]).drain = .ok (out, d1) ∧
      (d1.Err = some .ErrConflictFound ↔
        ∃ k, ConflictAt [(k1, valueOf i1)] [(k1, valueOf i1a)]
          [(k1, valueOf i1b), (k2, valueOf i2)] k) ∧
      ((¬ ∃ k, ConflictAt [(k1, valueOf i1)] [(k1, valueOf i1a)]
          [(k1, valueOf i1b), (k2, valueOf i2)] k) → d1.Err = none) :=
  drain_conflict_iff [(k1, valueOf i1)] [(k1, valueOf i1a)]
    [(k1, valueOf i1b), (k2, valueOf i2)] (by decide) (by decide) (by decide)

/-! ## Merging three snapshots -/

theorem observe_ok (out : List (Option ValueRecord)) (d1 : mergeIterator) :
    observe (.ok (out, d1)) = .ok (out, d1.Err, d1.diffIt.Value) := rfl

/-- C15, as the code has it. When draining the merge of sorted snapshots ends without
conflict, applying the emitted records to theirs gives, at every key of the diff stream
where ours differs from base, exactly what ours has at that key (absent when ours lacks
it); at a key of the diff stream where ours equals base, what theirs has is kept. -/
theorem apply_where_ours_changed (base theirs ours : Snapshot)
    (hb : SortedSnapshot base) (ht : SortedSnapshot theirs) (ho : SortedSnapshot ours)
    (out : List (Option ValueRecord)) (d1 : mergeIterator)
    (hd : (mergeOfSnapshots base theirs ours).drain = .ok (out, d1))
    (he : d1.Err = none) :
    ∀ x ∈ diffList theirs ours,
      (identityAt ours x.Key ≠ identityAt base x.Key →
        applyRecords (valueAt theirs) out x.Key = valueAt ours x.Key) ∧
      (identityAt ours x.Key = identityAt base x.Key →
        applyRecords (valueAt theirs) out x.Key = valueAt theirs x.Key) := by
  have hplan : plan (baseOf base).Data (diffList theirs ours) none =
      .ok (out, none, d1.diffIt.Value) := by
    rw [← drain_snapshots, hd, observe_ok, he]
  obtain ⟨hclean, hout⟩ := plan_clean _ _ _ _ hplan
  have hsorted := diffList_sorted theirs ours ht ho
  intro x hx
  have hxd : IsDiffAt theirs ours x := (mem_diffList theirs ours ht ho x).mp hx
  obtain ⟨hsel, hleft⟩ := applyRecords_filter
    (fun y => decide (verdict (baseAt (baseOf base).Data y.Key) y = .emit))
    (valueAt theirs) (diffList theirs ours) hsorted x hx
  rw [← hout] at hsel hleft
  constructor
  · intro hne
    have hv : verdict (baseAt (baseOf base).Data x.Key) x = .emit := by
      rcases hclean x hx with h | h
      · exact h
      · exact absurd ((verdict_skip_iff base theirs ours x hb hxd).mp h) hne
    rw [hsel (by simp [hv]), (record_of_isDiffAt theirs ours x hxd).1]
    exact (record_of_isDiffAt theirs ours x hxd).2
  · intro heq
    have hv : verdict (baseAt (baseOf base).Data x.Key) x = .skip :=
      (verdict_skip_iff base theirs ours x hb hxd).mpr heq
    exact hleft (by simp [hv])

/-- Witness of the amended C15: base `k1:i1`, theirs empty, ours `k1:i1, k2:i2`; the drain
emits the record of `k2` only, and at `k2` the result is what ours has. -/
theorem apply_where_ours_changed_witness :
    (identityAt [(k1, valueOf i1), (k2, valueOf i2)] k2 ≠ identityAt [(k1, valueOf i1)] k2 →
      applyRecords (valueAt []) [some (recordOf k2 i2)] k2 =
        valueAt [(k1, valueOf i1), (k2, valueOf i2)] k2) ∧
    (identityAt [(k1, valueOf i1), (k2, valueOf i2)] k2 = identityAt [(k1, valueOf i1)] k2 →
      applyRecords (valueAt []) [some (recordOf k2 i2)] k2 = valueAt [] k2) :=
  apply_where_ours_changed [(k1, valueOf i1)] [] [(k1, valueOf i1), (k2, valueOf i2)]
    (by decide) (by decide) (by decide) [some (recordOf k2 i2)] _ rfl rfl
    (added k2 i2) (by decide)

/-- Counterexample to C15 as stated: base `k1:i1`, theirs empty, ours `k1:i1, k2:i2`. The
drain ends without conflict having emitted the record of `k2` only; `k1` is in the diff
stream, ours has `i1` there, and theirs with the records applied has nothing. -/
theorem apply_where_ours_changed_counterexample :
    (∃ d1, (mergeOfSnapshots [(k1, valueOf i1)] [] [(k1, valueOf i1), (k2, valueOf i2)]).drain
        = .ok ([some (recordOf k2 i2)], d1) ∧ d1.Err = none) ∧
    added k1 i1 ∈ diffList [] [(k1, valueOf i1), (k2, valueOf i2)] ∧
    applyRecords (valueAt []) [some (recordOf k2 i2)] k1 = none ∧
    valueAt [(k1, valueOf i1), (k2, valueOf i2)] k1 = some (valueOf i1) :=
  ⟨⟨_, rfl, rfl⟩, by decide, by decide, by decide⟩

/-- C16, as the code has it. For sorted snapshots in which no key is changed relative to
base by both ours and theirs, draining the merge reports no conflict and emits exactly the
diffs at the keys where ours differs from base, one record per such diff, in the order of
the stream, with the diff's key and value; the diffs at keys where ours equals base are
skipped. -/
theorem drain_one_sided (base theirs ours : Snapshot)
    (hb : SortedSnapshot base) (ht : SortedSnapshot theirs) (ho : SortedSnapshot ours)
    (h : ∀ k, identityAt ours k = identityAt base k ∨ identityAt theirs k = identityAt base k) :
    ∃ d1, (mergeOfSnapshots base theirs ours).drain =
        .ok (((diffList theirs ours).filter
            (fun x => decide (identityAt ours x.Key ≠ identityAt base x.Key))).map
          (fun x => some { Key := x.Key, Value := x.Value }), d1) ∧
      d1.Err = none := by
  have hmem := mem_diffList theirs ours ht ho
  have hclean : ∀ x ∈ diffList theirs ours,
      verdict (baseAt (baseOf base).Data x.Key) x = .emit ∨
        verdict (baseAt (baseOf base).Data x.Key) x = .skip := by
    intro x hx
    have hxd := (hmem x).mp hx
    by_cases h1 : identityAt ours x.Key = identityAt base x.Key
    · exact Or.inr ((verdict_skip_iff base theirs ours x hb hxd).mpr h1)
    · rcases h x.Key with h2 | h2
      · exact absurd h2 h1
      · exact Or.inl ((verdict_emit_iff base theirs ours x hb hxd).mpr ⟨h1, h2⟩)
  have hplan := plan_of_clean (baseOf base).Data none (diffList theirs ours) hclean
  have hfilter : (diffList theirs ours).filter
        (fun x => decide (verdict (baseAt (baseOf base).Data x.Key) x = .emit)) =
      (diffList theirs ours).filter
        (fun x => decide (identityAt ours x.Key ≠ identityAt base x.Key)) := by
    apply List.filter_congr
    intro x hx
    have hxd := (hmem x).mp hx
    have hiff : verdict (baseAt (baseOf base).Data x.Key) x = .emit ↔
        identityAt ours x.Key ≠ identityAt base x.Key := by
      rw [verdict_emit_iff base theirs ours x hb hxd]
      constructor
      · exact fun hh => hh.1
      · intro h1
        rcases h x.Key with h2 | h2
        · exact absurd h2 h1
        · exact ⟨h1, h2⟩
    exact decide_eq_decide.mpr hiff
  have hmap : ((diffList theirs ours).filter
        (fun x => decide (identityAt ours x.Key ≠ identityAt base x.Key))).map
        (fun x => some x.record) =
      ((diffList theirs ours).filter
        (fun x => decide (identityAt ours x.Key ≠ identityAt base x.Key))).map
        (fun x => some { Key := x.Key, Value := x.Value }) := by
    apply List.map_congr_left
    intro x hx
    rw [(record_of_isDiffAt theirs ours x ((hmem x).mp (List.mem_of_mem_filter hx))).1]
  rw [hfilter, hmap] at hplan
  obtain ⟨d1, hd, he, _⟩ := observe_eq_ok _ _ _ _
    ((drain_snapshots base theirs ours).trans hplan)
  exact ⟨d1, hd, he⟩

/-- The snapshots of the second scenario of the test: only one side changes each key. -/
theorem one_sided_scenario (k : Key) :
    identityAt [(k1, valueOf i1), (k2, valueOf i2)] k = identityAt [(k1, valueOf i1)] k ∨
      identityAt [] k = identityAt [(k1, valueOf i1)] k := by
  by_cases h : k1 = k
  · left; simp [identityAt, valueAt, h]
  · right; simp [identityAt, valueAt, h]

/-- Witness of the amended C16: base `k1:i1`, theirs empty, ours `k1:i1, k2:i2`. -/
theorem drain_one_sided_witness :
    ∃ d1, (mergeOfSnapshots [(k1, valueOf i1)] [] [(k1, valueOf i1), (k2, valueOf i2)]).drain =
        .ok (((diffList [] [(k1, valueOf i1), (k2, valueOf i2)]).filter
            (fun x => decide (identityAt [(k1, valueOf i1), (k2, valueOf i2)] x.Key ≠
              identityAt [(k1, valueOf i1)] x.Key))).map
          (fun x => some { Key := x.Key, Value := x.Value }), d1) ∧
      d1.Err = none :=
  drain_one_sided [(k1, valueOf i1)] [] [(k1, valueOf i1), (k2, valueOf i2)]
    (by decide) (by decide) (by decide) one_sided_scenario

/-- Counterexample to C16 as stated: base `k1:i1`, theirs empty, ours `k1:i1, k2:i2`. No key
is changed by both sides, the diff stream is `Added k1/i1, Added k2/i2`, and the drain
emits the record of `k2` only. -/
theorem drain_one_sided_counterexample :
    (∀ k, identityAt [(k1, valueOf i1), (k2, valueOf i2)] k = identityAt [(k1, valueOf i1)] k ∨
      identityAt [] k = identityAt [(k1, valueOf i1)] k) ∧
    diffList [] [(k1, valueOf i1), (k2, valueOf i2)] = [added k1 i1, added k2 i2] ∧
    observe (mergeOfSnapshots [(k1, valueOf i1)] []
        [(k1, valueOf i1), (k2, valueOf i2)]).drain =
      .ok ([some (recordOf k2 i2)], none, none) :=
  ⟨one_sided_scenario, by decide, by decide⟩

/-- C17, as the code has it. For sorted snapshots and a key `k` at which ours has a value
whose Identity differs from base's, theirs differs from base, ours differs from theirs, and
below which no key conflicts: the diff stream has a diff at `k`, the drain collects exactly
the records of the diffs before `k` at which ours differs from base (all at keys smaller
than `k`, so none for `k`), and it ends with `Err()` equal to `ErrConflictFound` and the
diff stream standing on the diff at `k`. -/
theorem drain_conflict_at (base theirs ours : Snapshot)
    (hb : SortedSnapshot base) (ht : SortedSnapshot theirs) (ho : SortedSnapshot ours)
    (k : Key) (o : Value) (hov : valueAt ours k = some o)
    (h1 : identityAt ours k ≠ identityAt base k)
    (h2 : identityAt theirs k ≠ identityAt base k)
    (h3 : identityAt ours k ≠ identityAt theirs k)
    (hmin : ∀ j, j < k → ¬ ConflictAt base theirs ours j) :
    ∃ pre x post d1, diffList theirs ours = pre ++ x :: post ∧ x.Key = k ∧
      (∀ y ∈ pre, y.Key < k) ∧
      (mergeOfSnapshots base theirs ours).drain =
        .ok ((pre.filter
            (fun y => decide (identityAt ours y.Key ≠ identityAt base y.Key))).map
          (fun y => some y.record), d1) ∧
      d1.Err = some .ErrConflictFound ∧ d1.diffIt.Value = some x := by
  have hmem := mem_diffList theirs ours ht ho
  obtain ⟨x, hxk, hxd⟩ := isDiffAt_of_ne theirs ours k h3
  obtain ⟨pre, post, hsplit⟩ := List.append_of_mem ((hmem x).mpr hxd)
  have hsorted := diffList_sorted theirs ours ht ho
  rw [hsplit, List.pairwise_append] at hsorted
  have hlt : ∀ y ∈ pre, y.Key < k :=
    fun y hy => hxk ▸ hsorted.2.2 y hy x (List.mem_cons_self _ _)
  have hpre : ∀ y ∈ pre, IsDiffAt theirs ours y := by
    intro y hy
    apply (hmem y).mp
    rw [hsplit]
    exact List.mem_append_left _ hy
  have hstop : verdict (baseAt (baseOf base).Data x.Key) x = .stop := by
    rw [verdict_of_snapshots base theirs ours x hb hxd, hxk]
    simp [h1, h2, hov]
  have hclean : ∀ y ∈ pre, verdict (baseAt (baseOf base).Data y.Key) y = .emit ∨
      verdict (baseAt (baseOf base).Data y.Key) y = .skip := by
    intro y hy
    have hyd := hpre y hy
    have hnc := hmin y.Key (hlt y hy)
    by_cases e1 : identityAt ours y.Key = identityAt base y.Key
    · exact Or.inr ((verdict_skip_iff base theirs ours y hb hyd).mpr e1)
    · by_cases e2 : identityAt theirs y.Key = identityAt base y.Key
      · exact Or.inl ((verdict_emit_iff base theirs ours y hb hyd).mpr ⟨e1, e2⟩)
      · exact absurd ⟨e1, e2, isDiffAt_ne theirs ours y hyd⟩ hnc
  have hplan := plan_stop (baseOf base).Data none x post hstop pre hclean
  have hfilter : pre.filter
        (fun y => decide (verdict (baseAt (baseOf base).Data y.Key) y = .emit)) =
      pre.filter (fun y => decide (identityAt ours y.Key ≠ identityAt base y.Key)) := by
    apply List.filter_congr
    intro y hy
    have hyd := hpre y hy
    have hnc := hmin y.Key (hlt y hy)
    have hiff : verdict (baseAt (baseOf base).Data y.Key) y = .emit ↔
        identityAt ours y.Key ≠ identityAt base y.Key := by
      rw [verdict_emit_iff base theirs ours y hb hyd]
      constructor
      · exact fun hh => hh.1
      · intro e1
        by_cases e2 : identityAt theirs y.Key = identityAt base y.Key
        · exact ⟨e1, e2⟩
        · exact absurd ⟨e1, e2, isDiffAt_ne theirs ours y hyd⟩ hnc
    exact decide_eq_decide.mpr hiff
  rw [hfilter, ← hsplit] at hplan
  obtain ⟨d1, hd, he, hc⟩ := observe_eq_ok _ _ _ _
    ((drain_snapshots base theirs ours).trans hplan)
  exact ⟨pre, x, post, d1, hsplit, hxk, hlt, hd, he, hc⟩

/-- Witness of the amended C17: base `k2:i2`, theirs `k2:i2a`, ours `k1:i1, k2:i1b`; the
conflict is at `k2`, after the record of `k1` was emitted. -/
theorem drain_conflict_at_witness :
    ∃ pre x post d1,
      diffList [(k2, valueOf i2a)] [(k1, valueOf i1), (k2, valueOf i1b)] =
        pre ++ x :: post ∧ x.Key = k2 ∧
      (∀ y ∈ pre, y.Key < k2) ∧
      (mergeOfSnapshots [(k2, valueOf i2)] [(k2, valueOf i2a)]
          [(k1, valueOf i1), (k2, valueOf i1b)]).drain =
        .ok ((pre.filter
            (fun y => decide (identityAt [(k1, valueOf i1), (k2, valueOf i1b)] y.Key ≠
              identityAt [(k2, valueOf i2)] y.Key))).map
          (fun y => some y.record), d1) ∧
      d1.Err = some .ErrConflictFound ∧ d1.diffIt.Value = some x :=
  drain_conflict_at [(k2, valueOf i2)] [(k2, valueOf i2a)]
    [(k1, valueOf i1), (k2, valueOf i1b)] (by decide) (by decide) (by decide)
    k2 (valueOf i1b) (by decide) (by decide) (by decide) (by decide)
    (by
      intro j hj hc
      have hne : k2 ≠ j := fun e => (lt_irrefl k2) (e ▸ hj)
      have h := hc.2.1
      simp [identityAt, valueAt, hne] at h)

/-- Counterexample to C17 as stated: base empty, theirs `k1:i1`, ours `k1:i1`. At `k1` ours
has a value whose Identity differs from base's and theirs differs from base, no smaller key
conflicts, and the drain ends with nothing emitted and `Err()` nil: the two sides agree, so
the diff stream is empty. -/
theorem drain_conflict_at_counterexample :
    valueAt [(k1, valueOf i1)] k1 = some (valueOf i1) ∧
    identityAt [(k1, valueOf i1)] k1 ≠ identityAt [] k1 ∧
    (∀ j, j < k1 → ¬ ConflictAt [] [(k1, valueOf i1)] [(k1, valueOf i1)] j) ∧
    observe (mergeOfSnapshots [] [(k1, valueOf i1)] [(k1, valueOf i1)]).drain =
      .ok ([], none, none) :=
  ⟨by decide, by decide, fun _ _ hc => hc.2.2 rfl, by decide⟩

/-! ## Seeking -/

/-- C18. In every state and for every key `k`, `SeekGE(k)` leaves `Err()` and `Value()` nil,
leaves the diff stream as one `SeekGE(k)` on it leaves it (the stream has received exactly
one more seek, for `k`), and leaves the base iterator as it was. -/
theorem seekGE_resets (d : mergeIterator) (k : Key) :
    (d.SeekGE k).Err = none ∧ (d.SeekGE k).Value = none ∧
      (d.SeekGE k).diffIt = d.diffIt.SeekGE k ∧
      (d.SeekGE k).diffIt.seeks = d.diffIt.seeks ++ [k] ∧
      (d.SeekGE k).base = d.base :=
  ⟨rfl, rfl, rfl, rfl, rfl⟩

/-- On a stream sorted by key, dropping the entries before `k` keeps those at or after. -/
theorem dropWhile_eq_filter (k : Key) : ∀ (l : List Diff),
    l.Pairwise (fun a b => a.Key < b.Key) →
    l.dropWhile (fun x => decide (x.Key < k)) = l.filter (fun x => decide (k ≤ x.Key)) := by
  intro l
  induction l with
  | nil => intro _; rfl
  | cons x t ih =>
    intro hs
    rw [List.pairwise_cons] at hs
    by_cases hx : x.Key < k
    · have hnot : ¬ k ≤ x.Key := not_le_of_gt hx
      simp only [List.dropWhile_cons, List.filter_cons, hx, hnot, decide_True, decide_False,
        if_true]
      simpa using ih hs.2
    · have hle : k ≤ x.Key := le_of_not_lt hx
      have hall : List.filter (fun y => decide (k ≤ y.Key)) t = t := by
        rw [List.filter_eq_self]
        intro y hy
        exact decide_eq_true (le_trans hle (le_of_lt (hs.1 y hy)))
      simp only [List.dropWhile_cons, List.filter_cons, hx, hle, decide_True, decide_False,
        if_true]
      simp [hall]

/-- C19. On a diff stream sorted by key, in whatever state earlier calls left the merge
iterator, `SeekGE(k)` followed by a drain is observed (records, final `Err()`, final
position of the diff stream) as the drain of a new merge iterator over the diffs with key
at least `k` and a base iterator over the same base; and every record emitted after
`SeekGE(k)` has a key at least `k`. -/
theorem seekGE_fresh (d : mergeIterator) (k : Key) (base1 : Iterator)
    (hs : d.diffIt.Data.Pairwise (fun a b => a.Key < b.Key))
    (hbase : base1.Data = d.base.Data) :
    observe (d.SeekGE k).drain =
      observe (NewMergeIterator
        (NewDiffStream (d.diffIt.Data.filter (fun x => decide (k ≤ x.Key)))) base1).drain ∧
    (∀ out d1, (d.SeekGE k).drain = .ok (out, d1) →
      ∀ r ∈ out, ∃ rec, r = some rec ∧ k ≤ rec.Key) := by
  have hleft : observe (d.SeekGE k).drain =
      plan d.base.Data (d.diffIt.Data.filter (fun x => decide (k ≤ x.Key))) none := by
    rw [drain_plan, ← dropWhile_eq_filter k _ hs]
    rfl
  constructor
  · rw [hleft, drain_plan]
    show _ = plan base1.Data _ none
    rw [hbase]
    rfl
  · intro out d1 hd r hr
    rw [hd, observe_ok] at hleft
    obtain ⟨x, hx, hrx⟩ := plan_out_mem _ _ _ _ _ _ hleft.symm r hr
    refine ⟨x.record, hrx, ?_⟩
    have hk : x.record.Key = x.Key := by unfold Diff.record; split <;> rfl
    rw [hk]
    exact of_decide_eq_true (List.mem_filter.mp hx).2

/-- Witness of C19: a conflicted iterator over `Added k1/i1a, Added k2/i2` and base `k1:i1`,
sought to `k2`. -/
theorem seekGE_fresh_witness :
    observe (({ mergeOf [added k1 i1a, added k2 i2] [recordOf k1 i1] with
        err := some GravelerError.ErrConflictFound } : mergeIterator).SeekGE k2).drain =
      observe (NewMergeIterator
        (NewDiffStream ([added k1 i1a, added k2 i2].filter (fun x => decide (k2 ≤ x.Key))))
        (NewBaseOfRecords [recordOf k1 i1])).drain ∧
    (∀ out d1, (({ mergeOf [added k1 i1a, added k2 i2] [recordOf k1 i1] with
        err := some GravelerError.ErrConflictFound } : mergeIterator).SeekGE k2).drain =
        .ok (out, d1) →
      ∀ r ∈ out, ∃ rec, r = some rec ∧ k2 ≤ rec.Key) :=
  seekGE_fresh { mergeOf [added k1 i1a, added k2 i2] [recordOf k1 i1] with
      err := some GravelerError.ErrConflictFound } k2 (NewBaseOfRecords [recordOf k1 i1])
    (by decide) rfl

/-! ## The order of the emitted records -/

/-- A call of the loop of `Next` consumes a front part of the unreached diffs; when it
returns true the buffered record is that of the last diff consumed. -/
theorem nextLoop_split : ∀ (l : List Diff) (d : mergeIterator) (b : Bool)
    (d1 : mergeIterator), d.nextLoop l = .ok (b, d1) →
    ∃ pre, (b = true ∧ ∃ x, l = pre ++ x :: d1.diffIt.rest ∧ d1.val = some x.record) ∨
      (b = false ∧ l = pre ++ d1.diffIt.rest) := by
  intro l
  induction l with
  | nil =>
    intro d b d1 h
    simp only [mergeIterator.nextLoop, Exec.ok.injEq, Prod.mk.injEq] at h
    obtain ⟨hb, hd⟩ := h
    subst hd
    exact ⟨[], Or.inr ⟨hb.symm, rfl⟩⟩
  | cons x t ih =>
    intro d b d1 h
    have hcons : ∀ d2 : mergeIterator, d2.nextLoop t = .ok (b, d1) →
        ∃ pre, (b = true ∧ ∃ y, x :: t = pre ++ y :: d1.diffIt.rest ∧
            d1.val = some y.record) ∨
          (b = false ∧ x :: t = pre ++ d1.diffIt.rest) := by
      intro d2 h2
      obtain ⟨pre, hp⟩ := ih d2 b d1 h2
      refine ⟨x :: pre, ?_⟩
      rcases hp with ⟨hb, y, hy, hv⟩ | ⟨hb, hy⟩
      · exact Or.inl ⟨hb, y, by rw [hy]; rfl, hv⟩
      · exact Or.inr ⟨hb, by rw [hy]; rfl⟩
    rw [nextLoop_cons] at h
    cases hv : verdict (baseAt d.base.Data x.Key) x with
    | emit =>
      rw [hv] at h
      simp only [Exec.ok.injEq, Prod.mk.injEq] at h
      obtain ⟨hb, hd⟩ := h
      subst hd
      exact ⟨[], Or.inl ⟨hb.symm, x, by rw [lookedUp_rest d x t]; rfl, rfl⟩⟩
    | skip => rw [hv] at h; exact hcons _ h
    | stop =>
      rw [hv] at h
      simp only [Exec.ok.injEq, Prod.mk.injEq] at h
      obtain ⟨hb, hd⟩ := h
      subst hd
      exact ⟨[x], Or.inr ⟨hb.symm, by rw [lookedUp_rest d x t]; rfl⟩⟩
    | mark => rw [hv] at h; exact hcons _ h
    | crash => rw [hv] at h; simp at h

/-- The records collected by successive calls of `Next` are those of a sublist of the
unreached diffs, and the diffs still unreached afterwards come after them. -/
theorem nextCalls_sublist : ∀ (n : Nat) (d : mergeIterator)
    (acc out : List (Option ValueRecord)) (d2 : mergeIterator),
    d.nextCalls n acc = .ok (out, d2) →
    ∃ sub, out = acc ++ sub.map (fun x => some x.record) ∧
      (sub ++ d2.diffIt.rest).Sublist d.diffIt.rest := by
  intro n
  induction n with
  | zero =>
    intro d acc out d2 h
    simp only [mergeIterator.nextCalls, Exec.ok.injEq, Prod.mk.injEq] at h
    obtain ⟨h1, h2⟩ := h
    subst h2
    exact ⟨[], by simp [h1], by simp⟩
  | succ m ih =>
    intro d acc out d2 h
    simp only [mergeIterator.nextCalls] at h
    cases hn : d.Next with
    | ok p =>
      obtain ⟨b, d1⟩ := p
      rw [hn] at h
      obtain ⟨pre, hp⟩ := nextLoop_split d.diffIt.rest d b d1 hn
      cases b with
      | true =>
        simp only at h
        obtain ⟨sub, hout, hsub⟩ := ih d1 _ out d2 h
        rcases hp with ⟨_, x, hx, hv⟩ | ⟨hb, _⟩
        · refine ⟨x :: sub, ?_, ?_⟩
          · rw [hout]
            simp [mergeIterator.Value, hv]
          · rw [hx]
            exact List.sublist_append_of_sublist_right (List.Sublist.cons₂ x hsub)
        · exact absurd hb (by simp)
      | false =>
        simp only at h
        obtain ⟨sub, hout, hsub⟩ := ih d1 _ out d2 h
        rcases hp with ⟨hb, _⟩ | ⟨_, hx⟩
        · exact absurd hb (by simp)
        · refine ⟨sub, hout, ?_⟩
          rw [hx]
          exact List.sublist_append_of_sublist_right hsub
    | nilDeref => rw [hn] at h; simp at h
    | outOfFuel => rw [hn] at h; simp at h

/-- On a stream whose added and changed diffs carry a value, over a base whose records carry
a value, any number of successive calls of `Next` return. -/
theorem nextCalls_total : ∀ (n : Nat) (d : mergeIterator) (acc : List (Option ValueRecord)),
    (∀ x ∈ d.diffIt.rest, x.HasValue) → d.base.HasValues →
    ∃ out d2, d.nextCalls n acc = .ok (out, d2) := by
  intro n
  induction n with
  | zero => intro d acc _ _; exact ⟨acc, d, rfl⟩
  | succ m ih =>
    intro d acc hvals hbase
    obtain ⟨b, d1, hn⟩ := nextLoop_total d.diffIt.rest d hvals hbase
    have hn2 : d.Next = .ok (b, d1) := hn
    obtain ⟨pre, hp⟩ := nextLoop_split d.diffIt.rest d b d1 hn
    have hdata := (nextLoop_outcome d.diffIt.rest d b d1 hn).2.2
    have hrest : ∀ x ∈ d1.diffIt.rest, x.HasValue := by
      intro x hx
      apply hvals
      rcases hp with ⟨_, y, hy, _⟩ | ⟨_, hy⟩
      · rw [hy]; exact List.mem_append_right _ (List.mem_cons_of_mem _ hx)
      · rw [hy]; exact List.mem_append_right _ hx
    have hb1 : d1.base.HasValues := HasValues_of_Data _ _ hdata hbase
    simp only [mergeIterator.nextCalls, hn2]
    cases b with
    | true => exact ih d1 _ hrest hb1
    | false => exact ih d1 _ hrest hb1

/-- C20. On a diff stream whose unreached entries are strictly increasing by key, the
records emitted by any number of successive calls of `Next()` (those that return true) are
the records of a sublist of the stream, one per diff and in the order of the stream, and
their keys are strictly increasing. On a stream whose added and changed diffs carry a
value, over a base whose records carry a value, the calls return. -/
theorem emitted_increasing (d : mergeIterator) (n : Nat)
    (hs : d.diffIt.rest.Pairwise (fun a b => a.Key < b.Key)) :
    (∀ out d2, d.nextCalls n [] = .ok (out, d2) →
      ∃ sub : List Diff, sub.Sublist d.diffIt.rest ∧ out = sub.map (fun x => some x.record) ∧
        (sub.map (fun x => x.record.Key)).Pairwise (fun a b => a < b)) ∧
    ((∀ x ∈ d.diffIt.rest, x.HasValue) → d.base.HasValues →
      ∃ out d2, d.nextCalls n [] = .ok (out, d2)) := by
  constructor
  · intro out d2 h
    obtain ⟨sub, hout, hsub⟩ := nextCalls_sublist n d [] out d2 h
    have hsub2 : sub.Sublist d.diffIt.rest :=
      (List.sublist_append_left sub d2.diffIt.rest).trans hsub
    refine ⟨sub, hsub2, by simpa using hout, ?_⟩
    rw [List.pairwise_map]
    refine List.Pairwise.imp ?_ (List.Pairwise.sublist hsub2 hs)
    intro a b hab
    have ha : a.record.Key = a.Key := by unfold Diff.record; split <;> rfl
    have hb : b.record.Key = b.Key := by unfold Diff.record; split <;> rfl
    rw [ha, hb]; exact hab
  · intro hvals hbase
    exact nextCalls_total n d [] hvals hbase

/-- Witness of C20: three calls of `Next()` on the stream `Added k1/i1, Added k2/i2` over an
empty base. -/
theorem emitted_increasing_witness :
    ∃ out d2, (mergeOf [added k1 i1, added k2 i2] []).nextCalls 3 [] = .ok (out, d2) ∧
      ∃ sub : List Diff, sub.Sublist [added k1 i1, added k2 i2] ∧
        out = sub.map (fun x => some x.record) ∧
        (sub.map (fun x => x.record.Key)).Pairwise (fun a b => a < b) := by
  have h := emitted_increasing (mergeOf [added k1 i1, added k2 i2] []) 3 (by decide)
  obtain ⟨out, d2, hd⟩ := h.2 (by decide) (by decide)
  exact ⟨out, d2, hd, h.1 out d2 hd⟩

/-! ## The buffered record, an empty stream, and closing -/

/-- When the loop of `Next` returns true, the diff stream stands on one of the unreached
diffs and the buffered record is the record of that diff. -/
theorem nextLoop_true : ∀ (l : List Diff) (d d1 : mergeIterator),
    d.nextLoop l = .ok (true, d1) →
    ∃ x ∈ l, d1.diffIt.Value = some x ∧ d1.val = some x.record := by
  intro l
  induction l with
  | nil =>
    intro d d1 h
    simp [mergeIterator.nextLoop] at h
  | cons x t ih =>
    intro d d1 h
    have hcons : ∀ d2 : mergeIterator, d2.nextLoop t = .ok (true, d1) →
        ∃ y ∈ x :: t, d1.diffIt.Value = some y ∧ d1.val = some y.record := by
      intro d2 h2
      obtain ⟨y, hy, h3⟩ := ih d2 d1 h2
      exact ⟨y, List.mem_cons_of_mem _ hy, h3⟩
    rw [nextLoop_cons] at h
    cases hv : verdict (baseAt d.base.Data x.Key) x with
    | emit =>
      rw [hv] at h
      simp only [Exec.ok.injEq, Prod.mk.injEq, true_and] at h
      subst h
      refine ⟨x, List.mem_cons_self _ _, ?_, rfl⟩
      show (d.lookedUp x t).diffIt.Value = some x
      rw [lookedUp_diffIt]
      rfl
    | skip => rw [hv] at h; exact hcons _ h
    | stop => rw [hv] at h; simp at h
    | mark => rw [hv] at h; exact hcons _ h
    | crash => rw [hv] at h; simp at h

/-- C21. After a call of `Next()` that returned true (on a stream whose added and changed
diffs carry a value), the diff stream stands on a diff `x` of the stream and `Value()` is a
record whose Key is the key of `x`, whose Value is nil exactly when `x` is a Removed diff,
and whose Value is that of `x`, as it is, when `x` is an Added or Changed diff. -/
theorem value_after_true (d d1 : mergeIterator) (h : d.Next = .ok (true, d1))
    (hv : ∀ x ∈ d.diffIt.rest, x.HasValue) :
    ∃ x r, x ∈ d.diffIt.rest ∧ d1.diffIt.Value = some x ∧ d1.Value = some r ∧
      r.Key = x.Key ∧ (r.Value = none ↔ x.Typ = .DiffTypeRemoved) ∧
      (x.Typ ≠ .DiffTypeRemoved → r.Value = x.Value) := by
  obtain ⟨x, hx, hcur, hval⟩ := nextLoop_true d.diffIt.rest d d1 h
  refine ⟨x, x.record, hx, hcur, hval, ?_, ?_, ?_⟩
  · unfold Diff.record; split <;> rfl
  · by_cases ht : x.Typ = .DiffTypeRemoved
    · simp [Diff.record, ht]
    · have hne : x.Value ≠ none := by
        rcases hv x hx with h1 | h1
        · exact absurd h1 ht
        · exact h1
      simp [Diff.record, ht, hne]
  · intro ht
    simp [Diff.record, ht]

/-- Witness of C21: base `k1:i1`, diff stream `Removed k1 (old i1), Added k2/i2`; the first
call emits the tombstone of `k1`. -/
theorem value_after_true_witness :
    ∃ d1, (mergeOf [removed k1 i1, added k2 i2] [recordOf k1 i1]).Next = .ok (true, d1) ∧
      ∃ x r, x ∈ [removed k1 i1, added k2 i2] ∧ d1.diffIt.Value = some x ∧
        d1.Value = some r ∧ r.Key = x.Key ∧ (r.Value = none ↔ x.Typ = .DiffTypeRemoved) ∧
        (x.Typ ≠ .DiffTypeRemoved → r.Value = x.Value) :=
  ⟨_, rfl, value_after_true (mergeOf [removed k1 i1, added k2 i2] [recordOf k1 i1]) _ rfl
    (by decide)⟩

/-- C22. For every base, a merge iterator newly made over a diff stream that has no entry
returns false on its first call of `Next()`, with `Value()` nil (no record emitted) and
`Err()` nil; a caller's loop collects nothing. -/
theorem next_empty (diffIt : DiffIterator) (base : Iterator) (h : diffIt.rest = []) :
    ∃ d1, (NewMergeIterator diffIt base).Next = .ok (false, d1) ∧
      d1.Value = none ∧ d1.Err = none ∧
      (NewMergeIterator diffIt base).drain = .ok ([], d1) := by
  have hn := (Next_exhausted (NewMergeIterator diffIt base) h).2
  refine ⟨_, hn, rfl, rfl, ?_⟩
  unfold mergeIterator.drain
  simp only [mergeIterator.drainLoop, hn]

/-- Witness of C22: the empty diff stream over the base `k1:i1`. -/
theorem next_empty_witness :
    ∃ d1, (NewMergeIterator (NewDiffStream []) (NewBaseOfRecords [recordOf k1 i1])).Next =
        .ok (false, d1) ∧
      d1.Value = none ∧ d1.Err = none ∧
      (NewMergeIterator (NewDiffStream []) (NewBaseOfRecords [recordOf k1 i1])).drain =
        .ok ([], d1) :=
  next_empty (NewDiffStream []) (NewBaseOfRecords [recordOf k1 i1]) rfl

/-- C23, as the code has it. `Value()` never fails: it returns the buffered record, which
is nil on a newly made merge iterator and right after `SeekGE`, and which a call of
`Next()` that returns false (by exhaustion or by conflict) leaves as it was before that
call, nil or the record emitted last. -/
theorem value_without_position :
    (∀ (diffIt : DiffIterator) (base : Iterator), (NewMergeIterator diffIt base).Value = none) ∧
    (∀ (d : mergeIterator) (k : Key), (d.SeekGE k).Value = none) ∧
    (∀ (d d1 : mergeIterator), d.Next = .ok (false, d1) → d1.Value = d.Value) := by
  refine ⟨fun _ _ => rfl, fun _ _ => rfl, ?_⟩
  intro d d1 h
  rcases (nextLoop_outcome d.diffIt.rest d false d1 h).2.1 with ⟨_, hv⟩ | ⟨hb, _⟩
  · exact hv
  · exact absurd hb (by simp)

/-- Witness of the amended C23: over base `k1:i1`, the conflict on `Added k1/i1a` returns
false and `Value()` is nil as before the call. -/
theorem value_without_position_witness :
    ∃ d1, (mergeOf [added k1 i1a] [recordOf k1 i1]).Next = .ok (false, d1) ∧
      d1.Value = none :=
  ⟨_, rfl, value_without_position.2.2 (mergeOf [added k1 i1a] [recordOf k1 i1]) _ rfl⟩

/-- Counterexample to C23 as stated: on the diff stream `Added k1/i1` over an empty base,
`Value()` returns nil before the first `Next()`; the first call emits the record of `k1`,
the second returns false by exhaustion, and `Value()` then returns the record of `k1`. -/
theorem value_without_position_counterexample :
    (mergeOf [added k1 i1] []).Value = none ∧
    ∃ d1 d2, (mergeOf [added k1 i1] []).Next = .ok (true, d1) ∧
      d1.Next = .ok (false, d2) ∧ d2.Value = some (recordOf k1 i1) :=
  ⟨rfl, _, _, rfl, rfl, rfl⟩

/-- C24. In every state, `Close()` leaves the diff stream as one `Close()` on it leaves it
(closed once more, its position unchanged) and changes nothing else: `Value()` and `Err()`
are as before, and the base iterator is as it was, neither closed nor moved. -/
theorem close_only_diff (d : mergeIterator) :
    d.Close.diffIt = d.diffIt.Close ∧
      d.Close.diffIt.closed = d.diffIt.closed + 1 ∧
      d.Close.diffIt.rest = d.diffIt.rest ∧ d.Close.diffIt.Value = d.diffIt.Value ∧
      d.Close.Value = d.Value ∧ d.Close.Err = d.Err ∧
      d.Close.base = d.base ∧ d.Close.base.closed = d.base.closed :=
  ⟨rfl, rfl, rfl, rfl, rfl, rfl, rfl, rfl⟩

/-! ## Three-way merge correctness and the base lookup -/

/-- C25. For sorted snapshots base, theirs and ours for which draining the merge ends with
`Err()` nil, theirs with the emitted records applied has, at every key `k`, the Identity
ours has at `k` when ours differs from base there, and the Identity theirs has at `k`
otherwise. -/
theorem merge_correct (base theirs ours : Snapshot)
    (hb : SortedSnapshot base) (ht : SortedSnapshot theirs) (ho : SortedSnapshot ours)
    (out : List (Option ValueRecord)) (d1 : mergeIterator)
    (hd : (mergeOfSnapshots base theirs ours).drain = .ok (out, d1))
    (he : d1.Err = none) :
    ∀ k,
      (identityAt ours k ≠ identityAt base k →
        (applyRecords (valueAt theirs) out k).map Value.Identity = identityAt ours k) ∧
      (identityAt ours k = identityAt base k →
        (applyRecords (valueAt theirs) out k).map Value.Identity = identityAt theirs k) := by
  have hplan : plan (baseOf base).Data (diffList theirs ours) none =
      .ok (out, none, d1.diffIt.Value) := by
    rw [← drain_snapshots, hd, observe_ok, he]
  obtain ⟨hclean, hout⟩ := plan_clean _ _ _ _ hplan
  have hsorted := diffList_sorted theirs ours ht ho
  have hmem := mem_diffList theirs ours ht ho
  intro k
  by_cases hsame : identityAt ours k = identityAt theirs k
  · have hkeep : applyRecords (valueAt theirs) out k = valueAt theirs k := by
      rw [hout]
      apply applyRecords_other
      intro y hy hyk
      have hyd := (hmem y).mp (List.mem_of_mem_filter hy)
      exact isDiffAt_ne theirs ours y hyd (by rw [hyk]; exact hsame)
    rw [hkeep]
    exact ⟨fun _ => hsame.symm, fun _ => rfl⟩
  · obtain ⟨x, hxk, hxd⟩ := isDiffAt_of_ne theirs ours k hsame
    subst hxk
    have hx : x ∈ diffList theirs ours := (hmem x).mpr hxd
    obtain ⟨hsel, hleft⟩ := applyRecords_filter
      (fun y => decide (verdict (baseAt (baseOf base).Data y.Key) y = .emit))
      (valueAt theirs) (diffList theirs ours) hsorted x hx
    rw [← hout] at hsel hleft
    constructor
    · intro hne
      have hv : verdict (baseAt (baseOf base).Data x.Key) x = .emit := by
        rcases hclean x hx with h | h
        · exact h
        · exact absurd ((verdict_skip_iff base theirs ours x hb hxd).mp h) hne
      rw [hsel (by simp [hv]), (record_of_isDiffAt theirs ours x hxd).1]
      show x.Value.map Value.Identity = identityAt ours x.Key
      rw [(record_of_isDiffAt theirs ours x hxd).2]
      rfl
    · intro heq
      have hv : verdict (baseAt (baseOf base).Data x.Key) x = .skip :=
        (verdict_skip_iff base theirs ours x hb hxd).mpr heq
      rw [hleft (by simp [hv])]
      rfl

/-- Witness of C25: base `k1:i1, k2:i2`, theirs `k1:i1a, k2:i2`, ours `k1:i1, k2:i2a`; the
drain emits the change of `k2`, and at `k2` the result has the Identity of ours. -/
theorem merge_correct_witness :
    (identityAt [(k1, valueOf i1), (k2, valueOf i2a)] k2 ≠
        identityAt [(k1, valueOf i1), (k2, valueOf i2)] k2 →
      (applyRecords (valueAt [(k1, valueOf i1a), (k2, valueOf i2)])
          [some (recordOf k2 i2a)] k2).map Value.Identity =
        identityAt [(k1, valueOf i1), (k2, valueOf i2a)] k2) ∧
    (identityAt [(k1, valueOf i1), (k2, valueOf i2a)] k2 =
        identityAt [(k1, valueOf i1), (k2, valueOf i2)] k2 →
      (applyRecords (valueAt [(k1, valueOf i1a), (k2, valueOf i2)])
          [some (recordOf k2 i2a)] k2).map Value.Identity =
        identityAt [(k1, valueOf i1a), (k2, valueOf i2)] k2) :=
  merge_correct [(k1, valueOf i1), (k2, valueOf i2)] [(k1, valueOf i1a), (k2, valueOf i2)]
    [(k1, valueOf i1), (k2, valueOf i2a)] (by decide) (by decide) (by decide)
    [some (recordOf k2 i2a)] _ rfl rfl k2

/-- C26. On a sorted base (record keys strictly increasing, range headers in between),
`valueFromBase(k)` returns the record of the base whose key is `k` when there is one and
nil when there is none, and the result depends on the content of the base only, not on
where its cursor stood before the call. -/
theorem valueFromBase_exact (d : mergeIterator) (k : Key) (hs : d.base.Sorted) :
    (∀ r ∈ d.base.records, r.Key = k → (d.valueFromBase k).1 = some r) ∧
    ((∀ r ∈ d.base.records, r.Key ≠ k) → (d.valueFromBase k).1 = none) ∧
    (∀ e : mergeIterator, e.base.Data = d.base.Data →
      (e.valueFromBase k).1 = (d.valueFromBase k).1) := by
  refine ⟨?_, ?_, ?_⟩
  · intro r hr hk
    exact valueFromBase_found d k r hs hr hk
  · intro habs
    exact valueFromBase_absent d k habs
  · intro e he
    rw [valueFromBase_eq_baseAt, valueFromBase_eq_baseAt, he]

/-- Witness of C26: a base of two ranges, `k0:i0` and `k2:i2` each behind its header, with
the cursor past the end; `k2` is found, `k1` is not. -/
theorem valueFromBase_exact_witness :
    ((NewMergeIterator (NewDiffStream [])
        ((NewBase [.header k0, .record (recordOf k0 i0), .header k2,
          .record (recordOf k2 i2)]).SeekGE [200])).valueFromBase k2).1 =
      some (recordOf k2 i2) ∧
    ((NewMergeIterator (NewDiffStream [])
        ((NewBase [.header k0, .record (recordOf k0 i0), .header k2,
          .record (recordOf k2 i2)]).SeekGE [200])).valueFromBase k1).1 = none :=
  ⟨(valueFromBase_exact (NewMergeIterator (NewDiffStream [])
        ((NewBase [.header k0, .record (recordOf k0 i0), .header k2,
          .record (recordOf k2 i2)]).SeekGE [200])) k2 (by decide)).1
      (recordOf k2 i2) (by decide) rfl,
    (valueFromBase_exact (NewMergeIterator (NewDiffStream [])
        ((NewBase [.header k0, .record (recordOf k0 i0), .header k2,
          .record (recordOf k2 i2)]).SeekGE [200])) k1 (by decide)).2.1 (by decide)⟩


end Graveler
